import Mathlib

/-!
Verification of the go-ataxx engine core: the 49-bit dual-bitboard game
state, the precomputed neighbourhood mask tables, the bitboard and the
reference array move generators, the minimax / alpha-beta search engine,
and the bounded transposition table.

Each Go function is shallowly embedded as an executable Lean definition:
`uint64` values become `Nat` (all bit operations stay below `2 ^ 64`, so
no wrap-around occurs except in the two's-complement trick, which is
modelled exactly), Go `int` becomes `Int`, and slices become lists.
-/

/-! ### Bit utilities (embedding of Go `uint64` bit operations) -/

/-- Go bitwise complement `^x` on `uint64`: xor with the all-ones mask.
For `x < 2 ^ 64` this equals `2 ^ 64 - 1 - x`. -/
def NOT64 (x : Nat) : Nat := (2 ^ 64 - 1) ^^^ x

/-! ### Mask tables (embedding of `InitBitboards`, part_002 lines 641-723)

`InitBitboards` iterates, for every cell `maskIndex = y*7 + x`, the offsets
`iy, ix` over `[-2, 2]`, skipping out-of-board targets and the centre, and
classifies the target as a subdivide source iff both offsets lie in
`[-1, 1]`.  We embed the three tables as functions of the cell index. -/

/-- Offsets `-2 .. 2` iterated by the Go mask-initialisation loops. -/
def maskOffsets : List Int := [-2, -1, 0, 1, 2]

/-- Embedding of the `isSubdivision` flag computation of `InitBitboards`:
start `true`, falsified when an offset leaves `[-1, 1]`. -/
def isSubdivisionOffset (ix iy : Int) : Bool :=
  !(ix < -1 || ix > 1 || iy < -1 || iy > 1)

/-- Shared loop of `InitBitboards`: accumulate the mask bits of cell
`maskIndex` whose offsets satisfy `keep`. -/
def maskBuild (maskIndex : Nat) (keep : Int → Int → Bool) : Nat :=
  let y : Int := maskIndex / 7
  let x : Int := maskIndex % 7
  maskOffsets.foldl (fun acc iy =>
    if iy + y < 0 || iy + y ≥ 7 then acc
    else maskOffsets.foldl (fun acc2 ix =>
      if ix + x < 0 || ix + x ≥ 7 then acc2
      else if ix = 0 && iy = 0 then acc2
      else if keep ix iy then acc2 ||| (1 <<< ((y + iy) * 7 + (x + ix)).toNat)
      else acc2) acc) 0

/-- `subdivideMask[c]`: cells from which a piece can subdivide onto `c`. -/
def subdivideMask (maskIndex : Nat) : Nat :=
  maskBuild maskIndex fun ix iy => isSubdivisionOffset ix iy

/-- `jumpMask[c]`: cells from which a piece can jump onto `c`. -/
def jumpMask (maskIndex : Nat) : Nat :=
  maskBuild maskIndex fun ix iy => !isSubdivisionOffset ix iy

/-- `moveMask[c]`: cells from which a piece can move onto `c` (either way). -/
def moveMask (maskIndex : Nat) : Nat :=
  maskBuild maskIndex fun _ _ => true

/-- Truncated distance of two naturals, `|a - b|`. -/
def natDist (a b : Nat) : Nat := (a - b) + (b - a)

/-- Chebyshev distance between cells `c` and `i` of the row-major 7x7 grid. -/
def chebyshev (c i : Nat) : Nat :=
  max (natDist (c / 7) (i / 7)) (natDist (c % 7) (i % 7))

/-! ### The bitboard game state (part_002 lines 93-170, 481-638, 742-749) -/

/-- The 7x7 bitboard: two 49-bit populations packed in 64-bit words,
bit index `y*7 + x` for grid cell `(x, y)`. -/
structure AtaxxBitboard where
  maximizingPlayer : Nat
  minimizingPlayer : Nat
deriving DecidableEq, Repr

/-- Kernighan bit count of `SingleBitboard.PiecesPlaced`: repeatedly clear
the least significant set bit until the word is zero. -/
def PiecesPlaced (board : Nat) : Nat :=
  if h : board = 0 then 0
  else 1 + PiecesPlaced (board &&& (board - 1))
decreasing_by
  exact Nat.lt_of_le_of_lt Nat.and_le_right (Nat.sub_lt (Nat.pos_of_ne_zero h) Nat.one_pos)

/-- `AtaxxBitboard.Score`: maximizing pieces minus minimizing pieces. -/
def AtaxxBitboard.Score (board : AtaxxBitboard) : Int :=
  (PiecesPlaced board.maximizingPlayer : Int) - (PiecesPlaced board.minimizingPlayer : Int)

/-- `AtaxxBitboard.Finished`: the game is over when the first 49 bits of the
two populations are set together. -/
def AtaxxBitboard.Finished (board : AtaxxBitboard) : Bool :=
  (board.maximizingPlayer ||| board.minimizingPlayer) == (1 <<< 49) - 1

/-- A bitboard pair organised by player on the move rather than by strategy. -/
structure MoveBitboard where
  movingPlayer : Nat
  waitingPlayer : Nat
deriving DecidableEq, Repr

/-- `MoveBitboard.ToMinimaxBoard`: convert a moving/waiting pair back to the
canonical max/min pair, depending on the side that moved. -/
def MoveBitboard.ToMinimaxBoard (move : MoveBitboard) (maximizingPlayer : Bool) :
    AtaxxBitboard :=
  if maximizingPlayer then
    ⟨move.movingPlayer, move.waitingPlayer⟩
  else
    ⟨move.waitingPlayer, move.movingPlayer⟩

/-- Population of the player on the move. -/
def movingPlayerOf (board : AtaxxBitboard) (maximizingPlayer : Bool) : Nat :=
  if maximizingPlayer then board.maximizingPlayer else board.minimizingPlayer

/-- Population of the player waiting. -/
def waitingPlayerOf (board : AtaxxBitboard) (maximizingPlayer : Bool) : Nat :=
  if maximizingPlayer then board.minimizingPlayer else board.maximizingPlayer

/-- `emptyCells` of the bitboard generator: complement of both populations,
restricted to the 49 board bits. -/
def emptyCellsOf (board : AtaxxBitboard) (maximizingPlayer : Bool) : Nat :=
  NOT64 (movingPlayerOf board maximizingPlayer ||| waitingPlayerOf board maximizingPlayer) &&&
    ((1 <<< 49) - 1)

/-- The move template of the bitboard generator for destination `bit`: the
destination is taken, neighbouring enemy pieces are infected. -/
def templateOf (board : AtaxxBitboard) (maximizingPlayer : Bool) (bit : Nat) :
    MoveBitboard :=
  let moving := movingPlayerOf board maximizingPlayer
  let waiting := waitingPlayerOf board maximizingPlayer
  let withPiece := moving ||| (1 <<< bit)
  let infectionMask := waiting &&& subdivideMask bit
  ⟨withPiece ||| infectionMask, waiting &&& NOT64 infectionMask⟩

/-- Jump emission loop of the bitboard generator: extract the least
significant bit of `jumpingMask` with the two's-complement trick
`(^mask + 1) & mask`, emit the template with the jumper's source cleared,
and clear that bit from the mask.  The loop clears one set bit per
iteration, so 64 units of fuel always suffice for a `uint64` mask. -/
def jumpLoop (maximizingPlayer : Bool) (tpl : MoveBitboard) :
    Nat → Nat → List AtaxxBitboard
  | 0, _ => []
  | fuel + 1, jumpingMask =>
    if jumpingMask = 0 then []
    else
      let nextJump := (NOT64 jumpingMask + 1) &&& jumpingMask
      MoveBitboard.ToMinimaxBoard ⟨tpl.movingPlayer ^^^ nextJump, tpl.waitingPlayer⟩
          maximizingPlayer ::
        jumpLoop maximizingPlayer tpl fuel (jumpingMask ^^^ nextJump)

/-- `AtaxxBitboard.NextBoards` (part_002 lines 523-629): successor positions
for the given side, destinations in ascending bit index, jumps before the
single subdivision successor.  Note the `Finished` fast path returns the
board itself as a singleton. -/
def AtaxxBitboard.NextBoards (board : AtaxxBitboard) (maximizingPlayer : Bool) :
    List AtaxxBitboard :=
  if board.Finished then [board]
  else
    (List.range 49).flatMap fun bit =>
      if emptyCellsOf board maximizingPlayer &&& (1 <<< bit) ≠ 0 ∧
          movingPlayerOf board maximizingPlayer &&& moveMask bit ≠ 0 then
        jumpLoop maximizingPlayer (templateOf board maximizingPlayer bit) 64
            (movingPlayerOf board maximizingPlayer &&& jumpMask bit) ++
          (if movingPlayerOf board maximizingPlayer &&& subdivideMask bit ≠ 0 then
            [(templateOf board maximizingPlayer bit).ToMinimaxBoard maximizingPlayer]
          else [])
      else []

/-- `NewBitGame`: maximizer on bits 0 and 48, minimizer on bits 6 and 42. -/
def NewBitGame : AtaxxBitboard :=
  ⟨(1 <<< 48) ||| 1, (1 <<< 42) ||| (1 <<< 6)⟩

/-! ### The reference array board (part_002 lines 84-444)

The 7x7 grid of signed cells is embedded as a row-major list of 49
integers (`0` empty, `1` maximizer, `-1` minimizer), index `y*7 + x`. -/

/-- The reference 7x7 array board, row-major, 49 cells. -/
def AtaxxBoard : Type := List Int
deriving DecidableEq

/-- Cell access `board[y][x]` with `Nat` coordinates. -/
def boardGet (board : AtaxxBoard) (y x : Nat) : Int :=
  board.getD (y * 7 + x) 0

/-- Cell access `board[y][x]` with `Int` coordinates; only used after the
source bounds checks guarantee `0 ≤ y, x < 7`. -/
def boardGetI (board : AtaxxBoard) (y x : Int) : Int :=
  board.getD (y * 7 + x).toNat 0

/-- Cell update `board[y][x] = v` with `Int` coordinates. -/
def boardSetI (board : AtaxxBoard) (y x : Int) (v : Int) : AtaxxBoard :=
  board.set (y * 7 + x).toNat v

/-- `AtaxxBoard.Score`: sum of all cells. -/
def AtaxxBoard.Score (board : AtaxxBoard) : Int :=
  (List.range 7).foldl (fun s y =>
    (List.range 7).foldl (fun s2 x => s2 + boardGet board y x) s) 0

/-- `AtaxxBoard.Finished`: no empty cell (zero) remains. -/
def AtaxxBoard.Finished (board : AtaxxBoard) : Bool :=
  !((List.range 7).any fun y => (List.range 7).any fun x => boardGet board y x == 0)

/-- Neighbourhood sources of an empty cell `(x, y)` that hold a piece of
`color`, in the scan order of the source (`iy` outer, `ix` inner). -/
def cellSources (board : AtaxxBoard) (color : Int) (y x : Nat) : List (Int × Int) :=
  maskOffsets.flatMap fun iy =>
    if iy + (y : Int) < 0 || iy + (y : Int) ≥ 7 then []
    else maskOffsets.flatMap fun ix =>
      if ix + (x : Int) < 0 || ix + (x : Int) ≥ 7 then []
      else if boardGetI board (iy + (y : Int)) (ix + (x : Int)) = color then [(iy, ix)]
      else []

/-- The `newBoardTemplate` of the array generator: infect all directly
neighbouring enemy pieces, then put a piece of `color` on the centre. -/
def templateBoard (board : AtaxxBoard) (color : Int) (y x : Nat) : AtaxxBoard :=
  let infected := [-1, 0, 1].foldl (fun acc (iiy : Int) =>
    if (y : Int) + iiy < 0 || (y : Int) + iiy ≥ 7 then acc
    else [-1, 0, 1].foldl (fun acc2 (iix : Int) =>
      if (x : Int) + iix < 0 || (x : Int) + iix ≥ 7 then acc2
      else if boardGetI acc2 ((y : Int) + iiy) ((x : Int) + iix) = -color then
        boardSetI acc2 ((y : Int) + iiy) ((x : Int) + iix) color
      else acc2) acc) board
  boardSetI infected (y : Int) (x : Int) color

/-- Successors of the array generator landing on the empty cell `(x, y)`:
every jump (template with the jumper's source vacated) in scan order,
then, if some neighbour can subdivide, the template itself. -/
def cellNextBoards (board : AtaxxBoard) (color : Int) (y x : Nat) : List AtaxxBoard :=
  let sources := cellSources board color y x
  if sources.isEmpty then []
  else
    let tpl := templateBoard board color y x
    (sources.filter fun p => !isSubdivisionOffset p.2 p.1).map
        (fun p => boardSetI tpl (p.1 + (y : Int)) (p.2 + (x : Int)) 0) ++
      (if sources.any fun p => isSubdivisionOffset p.2 p.1 then [tpl] else [])

/-- `AtaxxBoard.NextBoards` (part_002 lines 211-387): iterate the empty
cells in row-major order; if empty cells remain but no move was found,
return the unchanged board as the single result (forced pass); with no
empty cells, return the empty list. -/
def AtaxxBoard.NextBoards (board : AtaxxBoard) (maximizingPlayer : Bool) :
    List AtaxxBoard :=
  let color : Int := if maximizingPlayer then 1 else -1
  let results := (List.range 7).flatMap fun y => (List.range 7).flatMap fun x =>
    if boardGet board y x = 0 then cellNextBoards board color y x else []
  let hasEmptyCell := (List.range 7).any fun y => (List.range 7).any fun x =>
    boardGet board y x == 0
  if hasEmptyCell && results.isEmpty then [board] else results

/-- `NewGame`: corner pieces of the starting position. -/
def NewGame : AtaxxBoard :=
  (List.range 49).map fun i =>
    if i = 0 ∨ i = 48 then 1 else if i = 6 ∨ i = 42 then -1 else 0

/-- Modelled from the spec: the natural bitboard-to-array correspondence
(`AtaxxBitboard.ToBoard`, referenced by the HTTP layer in part_004 but
absent from src): cell `i` is `1`, `-1` or `0` according to which
population holds bit `i`. -/
def AtaxxBitboard.ToBoard (board : AtaxxBitboard) : AtaxxBoard :=
  (List.range 49).map fun i =>
    if board.maximizingPlayer.testBit i then 1
    else if board.minimizingPlayer.testBit i then -1
    else 0

/-! ### Population count: Kernighan loop equals the recursive popcount -/

/-- Specification-level population count: number of set bits. -/
def popCountSpec (n : Nat) : Nat :=
  if n = 0 then 0 else n % 2 + popCountSpec (n / 2)
decreasing_by
  exact Nat.div_lt_self (Nat.pos_of_ne_zero (by assumption)) Nat.one_lt_two

/-! ### Bitboard invariants and their preservation by the move generator -/

/-- Bound invariant: no bits at indices 49 or above. -/
def bitBounded (b : AtaxxBitboard) : Prop :=
  b.maximizingPlayer < 2 ^ 49 ∧ b.minimizingPlayer < 2 ^ 49

/-- Full data-model invariant: bounds and disjoint populations. -/
def bitInv (b : AtaxxBitboard) : Prop :=
  bitBounded b ∧ b.maximizingPlayer &&& b.minimizingPlayer = 0

instance : DecidablePred bitBounded := fun b => by unfold bitBounded; infer_instance

instance : DecidablePred bitInv := fun b => by unfold bitInv bitBounded; infer_instance

/-- Positions reachable from the starting bitboard by repeated applications
of the move generator (for either side). -/
inductive ReachableBit : AtaxxBitboard → Prop
  | start : ReachableBit NewBitGame
  | step {B b' : AtaxxBitboard} (s : Bool) :
      ReachableBit B → b' ∈ B.NextBoards s → ReachableBit b'

/-! ### The generic search engine (src/search.go)

`Minimax` and `AlphaBeta` are written in Go against the
`MinimaxableGameboard` interface (`Score`, `NextBoards`, `Finished`); we
embed them generically over a score function and a successor function.
The Go `for i, board := range boards` loops that keep the first strictly
better board are embedded as folds ( `bestMaxFold` / `bestMinFold` ) and,
for alpha-beta, as explicit loop functions with early return. -/

/-- Color convention of the search engine: `+1` maximizing, `-1` minimizing. -/
def colorOf (maximizingPlayer : Bool) : Int := if maximizingPlayer then 1 else -1

section SearchEngine

variable {G : Type} (score : G → Int) (next : G → Int → List G)

/-- Loop of the depth-0 / negamax branches: keep the first board whose value
is strictly greater than the best seen. -/
def bestMaxFold (f : G → Int) (b : G) (rest : List G) : G × Int :=
  rest.foldl (fun best b' => if f b' > best.2 then (b', f b') else best) (b, f b)

/-- Dual loop keeping the first board with the strictly smallest value. -/
def bestMinFold (f : G → Int) (b : G) (rest : List G) : G × Int :=
  rest.foldl (fun best b' => if f b' < best.2 then (b', f b') else best) (b, f b)

/-- `Minimax` (src/search.go lines 60-117): negamax returning the best
successor together with its score from the caller's perspective. -/
def Minimax : Nat → G → Int → G × Int
  | 0, game, color =>
    match next game color with
    | [] => (game, color * score game)
    | b :: rest => bestMaxFold (fun b' => color * score b') b rest
  | depth + 1, game, color =>
    match next game color with
    | [] => (game, color * score game)
    | b :: rest =>
      bestMaxFold (fun b' => -(Minimax depth b' (-color)).2) b rest

/-- Maximizing loop of `AlphaBeta` after the first board: evaluate with the
current window, keep the first strictly better board, raise `alpha`, and
return early on `alpha ≥ beta`. -/
def abMaxLoop (f : Int → G → Int) (beta : Int) : Int → G × Int → List G → G × Int
  | _, best, [] => best
  | alpha, best, b :: rest =>
    let newScore := f alpha b
    let best' := if newScore > best.2 then (b, newScore) else best
    let alpha' := if best'.2 > alpha then best'.2 else alpha
    if alpha' ≥ beta then best' else abMaxLoop f beta alpha' best' rest

/-- Entry into the maximizing loop: the first board initialises the best
pair, then `alpha` is raised and the cutoff checked exactly as in the loop. -/
def abMaxGo (f : Int → G → Int) (beta alpha : Int) (b : G) (rest : List G) : G × Int :=
  let newScore := f alpha b
  let alpha' := if newScore > alpha then newScore else alpha
  if alpha' ≥ beta then (b, newScore) else abMaxLoop f beta alpha' (b, newScore) rest

/-- Minimizing loop of `AlphaBeta`: dual of `abMaxLoop`, lowering `beta`. -/
def abMinLoop (f : Int → G → Int) (alpha : Int) : Int → G × Int → List G → G × Int
  | _, best, [] => best
  | beta, best, b :: rest =>
    let newScore := f beta b
    let best' := if newScore < best.2 then (b, newScore) else best
    let beta' := if best'.2 < beta then best'.2 else beta
    if alpha ≥ beta' then best' else abMinLoop f alpha beta' best' rest

/-- Entry into the minimizing loop. -/
def abMinGo (f : Int → G → Int) (alpha beta : Int) (b : G) (rest : List G) : G × Int :=
  let newScore := f beta b
  let beta' := if newScore < beta then newScore else beta
  if alpha ≥ beta' then (b, newScore) else abMinLoop f alpha beta' (b, newScore) rest

/-- `AlphaBeta` (src/search.go lines 171-287): classical min/max alpha-beta,
scores always from the maximizer's perspective; at depth 0 all successors
are evaluated without pruning; deeper, children are searched with the
current window and search stops on `alpha ≥ beta`. -/
def AlphaBeta : Nat → G → Bool → Int → Int → G × Int
  | 0, game, maximizingPlayer, _, _ =>
    match next game (colorOf maximizingPlayer) with
    | [] => (game, score game)
    | b :: rest =>
      if maximizingPlayer then bestMaxFold score b rest else bestMinFold score b rest
  | depth + 1, game, maximizingPlayer, alpha, beta =>
    match next game (colorOf maximizingPlayer) with
    | [] => (game, score game)
    | b :: rest =>
      if maximizingPlayer then
        abMaxGo (fun a b' => (AlphaBeta depth b' false a beta).2) beta alpha b rest
      else
        abMinGo (fun bb b' => (AlphaBeta depth b' true alpha bb).2) alpha beta b rest

/-- Pruning-free game value from the maximizer's perspective, the common
specification of `Minimax` and `AlphaBeta`. -/
def gameValue : Nat → G → Bool → Int
  | 0, game, m =>
    match next game (colorOf m) with
    | [] => score game
    | b :: rest =>
      if m then (rest.map score).foldl max (score b)
      else (rest.map score).foldl min (score b)
  | d + 1, game, m =>
    match next game (colorOf m) with
    | [] => score game
    | b :: rest =>
      if m then (rest.map fun b' => gameValue d b' false).foldl max (gameValue d b false)
      else (rest.map fun b' => gameValue d b' true).foldl min (gameValue d b true)

end SearchEngine

/-- The bitboard game plugged into the search interface: the Go search
passes the color `±1` through to the board's `NextBoards`. -/
def bitNext (game : AtaxxBitboard) (color : Int) : List AtaxxBitboard :=
  game.NextBoards (color == 1)

/-- Score function of the bitboard game. -/
def bitScore (game : AtaxxBitboard) : Int := game.Score

/-! ### The transposition table (part_002 lines 153-170, 789-822)

The Go table is a bounded `map[AtaxxBitTransposition]Result` with
flush-on-full replacement.  The map is embedded as an association list
with unique keys (`tableInsert` replaces an existing binding), which
models exactly the observable `len` / lookup / assignment behaviour used
by `Load` and `Store`. -/

/-- Key of the bitboard transposition table: the full 5-tuple
`(board, side to move, depth, alpha, beta)`. -/
structure AtaxxBitTransposition where
  board : AtaxxBitboard
  maximizingPlayer : Bool
  depth : Nat
  alpha : Int
  beta : Int
deriving DecidableEq, Repr

/-- Stored transposition value: result board and score. -/
structure AtaxxBitTranspositionResult where
  resultBoard : AtaxxBitboard
  resultScore : Int
deriving DecidableEq, Repr

/-- First-match lookup in the association list backing the Go map. -/
def tableFind (entries : List (AtaxxBitTransposition × AtaxxBitTranspositionResult))
    (key : AtaxxBitTransposition) : Option AtaxxBitTranspositionResult :=
  match entries with
  | [] => none
  | (k, v) :: rest => if k = key then some v else tableFind rest key

/-- Map assignment `m[key] = v`: replace the binding if present, else add. -/
def tableInsert (entries : List (AtaxxBitTransposition × AtaxxBitTranspositionResult))
    (key : AtaxxBitTransposition) (v : AtaxxBitTranspositionResult) :
    List (AtaxxBitTransposition × AtaxxBitTranspositionResult) :=
  match entries with
  | [] => [(key, v)]
  | (k, v') :: rest =>
    if k = key then (key, v) :: rest else (k, v') :: tableInsert rest key v

/-- The bounded transposition table for bitboards. -/
structure AtaxxBitTranspositionTable where
  transpositionMap : List (AtaxxBitTransposition × AtaxxBitTranspositionResult)
  maxSize : Nat
deriving DecidableEq, Repr

/-- `AtaxxBitTranspositionTable.Load`: pure lookup under the 5-tuple key;
a miss returns the Go zero values and `found = false`. -/
def AtaxxBitTranspositionTable.Load (table : AtaxxBitTranspositionTable)
    (game : AtaxxBitboard) (maximizingPlayer : Bool) (depth : Nat) (alpha beta : Int) :
    AtaxxBitboard × Int × Bool :=
  match tableFind table.transpositionMap ⟨game, maximizingPlayer, depth, alpha, beta⟩ with
  | some res => (res.resultBoard, res.resultScore, true)
  | none => (⟨0, 0⟩, 0, false)

/-- `AtaxxBitTranspositionTable.Store`: if the map already holds `maxSize`
entries, clear it, then perform the assignment. -/
def AtaxxBitTranspositionTable.Store (table : AtaxxBitTranspositionTable)
    (game : AtaxxBitboard) (maximizingPlayer : Bool) (depth : Nat) (alpha beta : Int)
    (resultBoard : AtaxxBitboard) (resultScore : Int) : AtaxxBitTranspositionTable :=
  { transpositionMap :=
      if table.transpositionMap.length = table.maxSize then
        tableInsert [] ⟨game, maximizingPlayer, depth, alpha, beta⟩
          ⟨resultBoard, resultScore⟩
      else
        tableInsert table.transpositionMap ⟨game, maximizingPlayer, depth, alpha, beta⟩
          ⟨resultBoard, resultScore⟩,
    maxSize := table.maxSize }

/-- `NewBitTranspositionTable`: empty map with the requested capacity. -/
def NewBitTranspositionTable (size : Nat) : AtaxxBitTranspositionTable :=
  { transpositionMap := [], maxSize := size }

/-- Apply a sequence of stores (key and value pairs) to a table. -/
def applyStores (table : AtaxxBitTranspositionTable)
    (ops : List (AtaxxBitTransposition × AtaxxBitTranspositionResult)) :
    AtaxxBitTranspositionTable :=
  ops.foldl (fun t kv =>
    t.Store kv.1.board kv.1.maximizingPlayer kv.1.depth kv.1.alpha kv.1.beta
      kv.2.resultBoard kv.2.resultScore) table

/-! ### Alpha-beta with transposition caching

Modelled from the spec: the final iteration of `AlphaBetaTransposition`
(the caller of the 5-argument `Load` / `Store` of part_002) is absent from
src — src/search.go's `AlphaBetaTransposition` belongs to an earlier
iteration whose table interface keys only on `(board, side, depth)`.
Following section 4.5 of the spec: consult the table on entry with the key
`(game, maximizing, depth, alpha, beta)` and return the cached pair on a
hit; otherwise run the alpha-beta body, threading the table through the
recursive calls, and store the returned pair under the entry key on every
return path. -/

/-- Maximizing loop of the transposition search, threading the table. -/
def abttMaxLoop
    (f : Int → AtaxxBitboard → AtaxxBitTranspositionTable →
      (AtaxxBitboard × Int) × AtaxxBitTranspositionTable) (beta : Int) :
    Int → AtaxxBitboard × Int → List AtaxxBitboard → AtaxxBitTranspositionTable →
      (AtaxxBitboard × Int) × AtaxxBitTranspositionTable
  | _, best, [], t => (best, t)
  | alpha, best, b :: rest, t =>
    let r := f alpha b t
    let best' := if r.1.2 > best.2 then (b, r.1.2) else best
    let alpha' := if best'.2 > alpha then best'.2 else alpha
    if alpha' ≥ beta then (best', r.2) else abttMaxLoop f beta alpha' best' rest r.2

/-- Entry into the maximizing loop of the transposition search. -/
def abttMaxGo
    (f : Int → AtaxxBitboard → AtaxxBitTranspositionTable →
      (AtaxxBitboard × Int) × AtaxxBitTranspositionTable)
    (beta alpha : Int) (b : AtaxxBitboard) (rest : List AtaxxBitboard)
    (t : AtaxxBitTranspositionTable) :
    (AtaxxBitboard × Int) × AtaxxBitTranspositionTable :=
  let r := f alpha b t
  let alpha' := if r.1.2 > alpha then r.1.2 else alpha
  if alpha' ≥ beta then ((b, r.1.2), r.2) else abttMaxLoop f beta alpha' (b, r.1.2) rest r.2

/-- Minimizing loop of the transposition search, threading the table. -/
def abttMinLoop
    (f : Int → AtaxxBitboard → AtaxxBitTranspositionTable →
      (AtaxxBitboard × Int) × AtaxxBitTranspositionTable) (alpha : Int) :
    Int → AtaxxBitboard × Int → List AtaxxBitboard → AtaxxBitTranspositionTable →
      (AtaxxBitboard × Int) × AtaxxBitTranspositionTable
  | _, best, [], t => (best, t)
  | beta, best, b :: rest, t =>
    let r := f beta b t
    let best' := if r.1.2 < best.2 then (b, r.1.2) else best
    let beta' := if best'.2 < beta then best'.2 else beta
    if alpha ≥ beta' then (best', r.2) else abttMinLoop f alpha beta' best' rest r.2

/-- Entry into the minimizing loop of the transposition search. -/
def abttMinGo
    (f : Int → AtaxxBitboard → AtaxxBitTranspositionTable →
      (AtaxxBitboard × Int) × AtaxxBitTranspositionTable)
    (alpha beta : Int) (b : AtaxxBitboard) (rest : List AtaxxBitboard)
    (t : AtaxxBitTranspositionTable) :
    (AtaxxBitboard × Int) × AtaxxBitTranspositionTable :=
  let r := f beta b t
  let beta' := if r.1.2 < beta then r.1.2 else beta
  if alpha ≥ beta' then ((b, r.1.2), r.2) else abttMinLoop f alpha beta' (b, r.1.2) rest r.2

/-- Modelled from the spec: `AlphaBetaTransposition` over the bitboard
game, consulting the part_002 table with the full 5-tuple key. -/
def AlphaBetaTransposition (depth : Nat) (game : AtaxxBitboard) (maximizingPlayer : Bool)
    (alpha beta : Int) (table : AtaxxBitTranspositionTable) :
    (AtaxxBitboard × Int) × AtaxxBitTranspositionTable :=
  match table.Load game maximizingPlayer depth alpha beta with
  | (hashBoard, hashScore, true) => ((hashBoard, hashScore), table)
  | (_, _, false) =>
    let res :=
      match depth, bitNext game (colorOf maximizingPlayer) with
      | _, [] => ((game, bitScore game), table)
      | 0, b :: rest =>
        ((if maximizingPlayer then bestMaxFold bitScore b rest
          else bestMinFold bitScore b rest), table)
      | d + 1, b :: rest =>
        if maximizingPlayer then
          abttMaxGo (fun a b' t' => AlphaBetaTransposition d b' false a beta t')
            beta alpha b rest table
        else
          abttMinGo (fun bb b' t' => AlphaBetaTransposition d b' true alpha bb t')
            alpha beta b rest table
    (res.1, res.2.Store game maximizingPlayer depth alpha beta res.1.1 res.1.2)
termination_by depth

/-- Table correctness invariant: every cached entry equals the pure
alpha-beta result for its own key. -/
def TableOK (t : AtaxxBitTranspositionTable) : Prop :=
  ∀ (k : AtaxxBitTransposition) (res : AtaxxBitTranspositionResult),
    tableFind t.transpositionMap k = some res →
    (res.resultBoard, res.resultScore) =
      AlphaBeta bitScore bitNext k.depth k.board k.maximizingPlayer k.alpha k.beta

/-! ### Settled claims on concrete inputs (C1, C2, C3) -/

set_option maxRecDepth 10000

/-- Claim C1.  The claim states that `Finished B` holds iff `NextBoards B S`
is empty for both sides, and in particular that a fully occupied board
yields empty successor sequences.  The code diverges: on the full board
(every cell held by the maximizer) `Finished` is `true`, yet
`AtaxxBitboard.NextBoards` returns the singleton `[B]` for both sides
instead of the empty sequence (the `Finished` fast path of part_002
lines 526-530). -/
theorem claim_C1_finished_fast_path_divergence :
    AtaxxBitboard.Finished ⟨(1 <<< 49) - 1, 0⟩ = true ∧
    AtaxxBitboard.NextBoards ⟨(1 <<< 49) - 1, 0⟩ true = [⟨(1 <<< 49) - 1, 0⟩] ∧
    AtaxxBitboard.NextBoards ⟨(1 <<< 49) - 1, 0⟩ false = [⟨(1 <<< 49) - 1, 0⟩] ∧
    AtaxxBoard.NextBoards (AtaxxBitboard.ToBoard ⟨(1 <<< 49) - 1, 0⟩) true = [] ∧
    AtaxxBoard.NextBoards (AtaxxBitboard.ToBoard ⟨(1 <<< 49) - 1, 0⟩) false = [] := by
  decide

/-- Claim C2.  The claim states that when the board has an empty cell but
the side to move has no piece within Chebyshev distance 2 of any empty
cell, `next_boards` returns the singleton `[B]` (forced pass).  On the
forced-pass position (maximizer on the full border, minimizer on every
interior cell except the centre) the hypotheses hold for the maximizer,
the reference array generator indeed returns the singleton, but
`AtaxxBitboard.NextBoards` returns the empty list: the bitboard generator
has no pass handling. -/
theorem claim_C2_forced_pass_divergence :
    (∃ d : Fin 49, (560802875597055 : Nat).testBit d.val = false ∧
      (2147061047040 : Nat).testBit d.val = false) ∧
    (∀ d : Fin 49, ∀ i : Fin 49,
      ((560802875597055 : Nat).testBit d.val || (2147061047040 : Nat).testBit d.val) = false →
      (560802875597055 : Nat).testBit i.val = true → ¬ chebyshev d.val i.val ≤ 2) ∧
    AtaxxBitboard.NextBoards ⟨560802875597055, 2147061047040⟩ true = [] ∧
    AtaxxBoard.NextBoards (AtaxxBitboard.ToBoard ⟨560802875597055, 2147061047040⟩) true =
      [AtaxxBitboard.ToBoard ⟨560802875597055, 2147061047040⟩] := by
  decide

/-- Claim C3.  The claim states that the bitboard generator and the
reference array generator produce equal successor sequences (under the
natural mapping) on every reachable board.  On a fully occupied board
(the normal end state of a game) they diverge: the bitboard generator
returns the singleton `[B]` while the reference generator returns the
empty sequence, so the lengths differ. -/
theorem claim_C3_generator_divergence_on_full_board :
    AtaxxBitboard.NextBoards ⟨(1 <<< 49) - 1, 0⟩ true = [⟨(1 <<< 49) - 1, 0⟩] ∧
    AtaxxBoard.NextBoards (AtaxxBitboard.ToBoard ⟨(1 <<< 49) - 1, 0⟩) true = [] ∧
    ((AtaxxBitboard.NextBoards ⟨(1 <<< 49) - 1, 0⟩ true).map AtaxxBitboard.ToBoard).length ≠
      (AtaxxBoard.NextBoards (AtaxxBitboard.ToBoard ⟨(1 <<< 49) - 1, 0⟩) true).length := by
  decide

/-- Claim C6.  For every cell `c`, `subdivideMask c` holds exactly the
in-board cells at Chebyshev distance 1 from `c`, `jumpMask c` exactly
those at distance 2, `moveMask c` is their union, no mask contains bit
`c` itself, and no mask has bits at indices 49 or above. -/
theorem claim_C6_mask_tables_correct :
    ∀ c : Fin 49,
      (∀ i : Fin 49,
        ((subdivideMask c.val).testBit i.val = decide (chebyshev c.val i.val = 1)) ∧
        ((jumpMask c.val).testBit i.val = decide (chebyshev c.val i.val = 2))) ∧
      moveMask c.val = subdivideMask c.val ||| jumpMask c.val ∧
      (subdivideMask c.val).testBit c.val = false ∧
      (jumpMask c.val).testBit c.val = false ∧
      (moveMask c.val).testBit c.val = false ∧
      subdivideMask c.val < 2 ^ 49 ∧ jumpMask c.val < 2 ^ 49 ∧ moveMask c.val < 2 ^ 49 := by
  decide

/-! ### Bit-subset toolkit

A bit-population `a` is a subset of `b` when `a &&& b = a`.  These small
lemmas drive the invariant-preservation proofs for the move generator. -/

theorem land_submask (x j : Nat) : (x &&& j) &&& j = x &&& j := by
  rw [Nat.and_assoc, Nat.and_self]

theorem land_submask_left (x j : Nat) : (x &&& j) &&& x = x &&& j := by
  rw [Nat.and_comm x j, Nat.and_assoc, Nat.and_self]

theorem landSubset_le {a b : Nat} (h : a &&& b = a) : a ≤ b :=
  h ▸ Nat.and_le_right

theorem landSubset_trans {a b c : Nat} (h1 : a &&& b = a) (h2 : b &&& c = b) :
    a &&& c = a := by
  calc a &&& c = (a &&& b) &&& c := by rw [h1]
    _ = a &&& (b &&& c) := Nat.and_assoc _ _ _
    _ = a &&& b := by rw [h2]
    _ = a := h1

theorem landSubset_xor {a b : Nat} (h : b &&& a = b) : (a ^^^ b) &&& a = a ^^^ b := by
  apply Nat.eq_of_testBit_eq
  intro i
  have hb := congrArg (Nat.testBit · i) h
  simp only [Nat.testBit_and, Nat.testBit_xor] at *
  cases hA : a.testBit i <;> cases hB : b.testBit i <;> simp_all

theorem landSubset_zero {a' a c : Nat} (h1 : a' &&& a = a') (h2 : a &&& c = 0) :
    a' &&& c = 0 := by
  calc a' &&& c = (a' &&& a) &&& c := by rw [h1]
    _ = a' &&& (a &&& c) := Nat.and_assoc _ _ _
    _ = 0 := by rw [h2, Nat.and_zero]

theorem land_absorb (a b : Nat) : a &&& (a ||| b) = a := by
  apply Nat.eq_of_testBit_eq
  intro i
  simp only [Nat.testBit_and, Nat.testBit_or]
  cases a.testBit i <;> simp

theorem testBit_false_of_land_zero {a b : Nat} (h : a &&& b = 0) {i : Nat}
    (ha : a.testBit i = true) : b.testBit i = false := by
  have hb := congrArg (Nat.testBit · i) h
  simp only [Nat.testBit_and, Nat.zero_testBit] at hb
  cases hB : b.testBit i
  · rfl
  · rw [ha, hB] at hb; exact absurd hb (by simp)

theorem testBit_lt_of_lt_two_pow {n i k : Nat} (h : n < 2 ^ k)
    (hi : n.testBit i = true) : i < k := by
  by_contra hik
  have h2 : 2 ^ k ≤ 2 ^ i := Nat.pow_le_pow_right (by norm_num) (Nat.le_of_not_lt hik)
  have := Nat.testBit_implies_ge hi
  omega

theorem land_two_pow_ne_zero {n i : Nat} (h : n &&& (1 <<< i) ≠ 0) :
    n.testBit i = true := by
  by_contra hfalse
  apply h
  apply Nat.eq_of_testBit_eq
  intro k
  simp only [Nat.testBit_and, Nat.one_shiftLeft, Nat.zero_testBit]
  rcases eq_or_ne i k with rfl | hne
  · simp [Bool.eq_false_iff.mpr hfalse]
  · simp [Nat.testBit_two_pow_of_ne hne]

theorem land_double {n : Nat} (hn : n ≠ 0) :
    (2 * n) &&& (2 * n - 1) = 2 * (n &&& (n - 1)) := by
  have h1 : 2 * n - 1 = 2 * (n - 1) + 1 := by omega
  apply Nat.eq_of_testBit_eq
  intro i
  cases i with
  | zero =>
    simp [Nat.testBit_and, Nat.testBit_zero, Nat.mul_mod_right]
  | succ i =>
    have e1 : 2 * n / 2 = n := by omega
    have e2 : (2 * (n - 1) + 1) / 2 = n - 1 := by omega
    have e3 : 2 * (n &&& (n - 1)) / 2 = n &&& (n - 1) := by omega
    simp only [Nat.testBit_succ, Nat.and_div_two, h1, e1, e2, e3]

theorem land_odd (k : Nat) : (2 * k + 1) &&& (2 * k) = 2 * k := by
  apply Nat.eq_of_testBit_eq
  intro i
  cases i with
  | zero =>
    simp [Nat.testBit_and, Nat.testBit_zero, Nat.mul_mod_right]
  | succ i =>
    have e1 : (2 * k + 1) / 2 = k := by omega
    have e2 : 2 * k / 2 = k := by omega
    simp only [Nat.testBit_succ, Nat.and_div_two, e1, e2, Nat.and_self]

theorem PiecesPlaced_double : ∀ n, PiecesPlaced (2 * n) = PiecesPlaced n := by
  intro n
  induction n using Nat.strong_induction_on with
  | _ n ih =>
    rcases Nat.eq_zero_or_pos n with rfl | hpos
    · norm_num
    · have hn : n ≠ 0 := by omega
      have h2n : 2 * n ≠ 0 := by omega
      conv_rhs => rw [PiecesPlaced, dif_neg hn]
      rw [PiecesPlaced, dif_neg h2n, land_double hn,
        ih (n &&& (n - 1)) (Nat.lt_of_le_of_lt Nat.and_le_right (by omega))]

theorem PiecesPlaced_eq_popCountSpec : ∀ n, PiecesPlaced n = popCountSpec n := by
  intro n
  induction n using Nat.strong_induction_on with
  | _ n ih =>
    rcases Nat.eq_zero_or_pos n with rfl | hpos
    · simp [PiecesPlaced, popCountSpec]
    · have hn : n ≠ 0 := by omega
      rcases Nat.mod_two_eq_zero_or_one n with h2 | h2
      · have hk' : n = 2 * (n / 2) := by omega
        have hklt : n / 2 < n := by omega
        have hk0 : (2 : Nat) * (n / 2) ≠ 0 := by omega
        rw [hk']
        conv_rhs => rw [popCountSpec, if_neg hk0]
        rw [PiecesPlaced_double, ih (n / 2) hklt]
        have e1 : 2 * (n / 2) % 2 = 0 := by omega
        have e2 : 2 * (n / 2) / 2 = n / 2 := by omega
        rw [e1, e2, Nat.zero_add]
      · have hk' : n = 2 * (n / 2) + 1 := by omega
        have hklt : n / 2 < n := by omega
        have hk0 : (2 : Nat) * (n / 2) + 1 ≠ 0 := by omega
        rw [hk']
        conv_rhs => rw [popCountSpec, if_neg hk0]
        rw [PiecesPlaced, dif_neg hk0, show 2 * (n / 2) + 1 - 1 = 2 * (n / 2) by omega,
          land_odd, PiecesPlaced_double, ih (n / 2) hklt]
        have e1 : (2 * (n / 2) + 1) % 2 = 1 := by omega
        have e2 : (2 * (n / 2) + 1) / 2 = n / 2 := by omega
        rw [e1, e2, Nat.add_comm]

theorem popCountSpec_le : ∀ k n, n < 2 ^ k → popCountSpec n ≤ k := by
  intro k
  induction k with
  | zero =>
    intro n h
    have hn : n = 0 := by omega
    subst hn
    simp [popCountSpec]
  | succ k ih =>
    intro n h
    rw [popCountSpec]
    split
    · omega
    · have hp : 2 ^ (k + 1) = 2 * 2 ^ k := by ring
      have := ih (n / 2) (by omega)
      omega

theorem PiecesPlaced_le {n k : Nat} (h : n < 2 ^ k) : PiecesPlaced n ≤ k := by
  rw [PiecesPlaced_eq_popCountSpec]; exact popCountSpec_le k n h

theorem movingPlayerOf_lt {B : AtaxxBitboard} (h : bitBounded B) (s : Bool) :
    movingPlayerOf B s < 2 ^ 49 := by
  cases s
  · simpa [movingPlayerOf] using h.2
  · simpa [movingPlayerOf] using h.1

theorem waitingPlayerOf_lt {B : AtaxxBitboard} (h : bitBounded B) (s : Bool) :
    waitingPlayerOf B s < 2 ^ 49 := by
  cases s
  · simpa [waitingPlayerOf] using h.1
  · simpa [waitingPlayerOf] using h.2

theorem moving_waiting_disjoint {B : AtaxxBitboard} (h : bitInv B) (s : Bool) :
    movingPlayerOf B s &&& waitingPlayerOf B s = 0 := by
  cases s
  · simp only [movingPlayerOf, waitingPlayerOf, if_neg Bool.false_ne_true]
    rw [Nat.and_comm]; exact h.2
  · simpa [movingPlayerOf, waitingPlayerOf] using h.2

theorem ToMinimaxBoard_inv {m w : Nat} (hm : m < 2 ^ 49) (hw : w < 2 ^ 49)
    (hd : m &&& w = 0) (s : Bool) :
    bitInv (MoveBitboard.ToMinimaxBoard ⟨m, w⟩ s) := by
  cases s
  · simp only [MoveBitboard.ToMinimaxBoard, if_neg Bool.false_ne_true]
    exact ⟨⟨hw, hm⟩, by rw [Nat.and_comm]; exact hd⟩
  · simp only [MoveBitboard.ToMinimaxBoard, if_pos rfl]
    exact ⟨⟨hm, hw⟩, hd⟩

theorem mem_jumpLoop {maximizing : Bool} {tpl : MoveBitboard} :
    ∀ (fuel j : Nat) (b' : AtaxxBitboard), b' ∈ jumpLoop maximizing tpl fuel j →
      ∃ nj, nj &&& j = nj ∧
        b' = MoveBitboard.ToMinimaxBoard ⟨tpl.movingPlayer ^^^ nj, tpl.waitingPlayer⟩
          maximizing := by
  intro fuel
  induction fuel with
  | zero => intro j b' h; simp [jumpLoop] at h
  | succ fuel ih =>
    intro j b' h
    by_cases hj : j = 0
    · simp [jumpLoop, hj] at h
    · rw [jumpLoop, if_neg hj] at h
      rcases List.mem_cons.mp h with h | h
      · exact ⟨(NOT64 j + 1) &&& j, land_submask _ _, h⟩
      · obtain ⟨nj, hsub, he⟩ := ih _ b' h
        exact ⟨nj, landSubset_trans hsub (landSubset_xor (land_submask _ _)), he⟩

theorem emptyCells_testBit {B : AtaxxBitboard} {s : Bool} {bit : Nat} (hbit : bit < 49)
    (hc : emptyCellsOf B s &&& (1 <<< bit) ≠ 0) :
    (movingPlayerOf B s).testBit bit = false ∧ (waitingPlayerOf B s).testBit bit = false := by
  have he := land_two_pow_ne_zero hc
  unfold emptyCellsOf NOT64 at he
  rw [show ((1 : Nat) <<< 49) - 1 = 2 ^ 49 - 1 from by rw [Nat.one_shiftLeft]] at he
  simp only [Nat.testBit_and, Nat.testBit_xor, Nat.testBit_or,
    Nat.testBit_two_pow_sub_one] at he
  rcases hm : (movingPlayerOf B s).testBit bit <;>
    rcases hw : (waitingPlayerOf B s).testBit bit <;>
      simp_all [show bit < 64 by omega, hbit]

theorem templateOf_movingPlayer (B : AtaxxBitboard) (s : Bool) (bit : Nat) :
    (templateOf B s bit).movingPlayer =
      (movingPlayerOf B s ||| (1 <<< bit)) ||| (waitingPlayerOf B s &&& subdivideMask bit) :=
  rfl

theorem templateOf_waitingPlayer (B : AtaxxBitboard) (s : Bool) (bit : Nat) :
    (templateOf B s bit).waitingPlayer =
      waitingPlayerOf B s &&& NOT64 (waitingPlayerOf B s &&& subdivideMask bit) :=
  rfl

theorem templateOf_bounded {B : AtaxxBitboard} {s : Bool} {bit : Nat}
    (hB : bitBounded B) (hbit : bit < 49) :
    (templateOf B s bit).movingPlayer < 2 ^ 49 ∧ (templateOf B s bit).waitingPlayer < 2 ^ 49 := by
  have hpow : (2 : Nat) ^ bit < 2 ^ 49 :=
    lt_of_le_of_lt (Nat.pow_le_pow_right (by norm_num) (by omega : bit ≤ 48)) (by norm_num)
  rw [templateOf_movingPlayer, templateOf_waitingPlayer]
  refine ⟨Nat.or_lt_two_pow (Nat.or_lt_two_pow (movingPlayerOf_lt hB s) ?_)
    (Nat.lt_of_le_of_lt Nat.and_le_left (waitingPlayerOf_lt hB s)),
    Nat.lt_of_le_of_lt Nat.and_le_left (waitingPlayerOf_lt hB s)⟩
  rw [Nat.one_shiftLeft]; exact hpow

theorem templateOf_disjoint {B : AtaxxBitboard} {s : Bool} {bit : Nat}
    (hB : bitInv B) (hbit : bit < 49)
    (hmov : (movingPlayerOf B s).testBit bit = false)
    (hwait : (waitingPlayerOf B s).testBit bit = false) :
    (templateOf B s bit).movingPlayer &&& (templateOf B s bit).waitingPlayer = 0 := by
  rw [templateOf_movingPlayer, templateOf_waitingPlayer]
  apply Nat.eq_of_testBit_eq
  intro i
  simp only [Nat.testBit_and, Nat.testBit_or, NOT64, Nat.testBit_xor, Nat.one_shiftLeft,
    Nat.testBit_two_pow, Nat.testBit_two_pow_sub_one, Nat.zero_testBit]
  cases hw : (waitingPlayerOf B s).testBit i
  · simp
  · have hi : i < 49 := testBit_lt_of_lt_two_pow (waitingPlayerOf_lt hB.1 s) hw
    have hi64 : decide (i < 64) = true := by simp; omega
    have hwd : waitingPlayerOf B s &&& movingPlayerOf B s = 0 := by
      rw [Nat.and_comm]; exact moving_waiting_disjoint hB s
    have hmi : (movingPlayerOf B s).testBit i = false :=
      testBit_false_of_land_zero hwd hw
    have hbi : decide (bit = i) = false := by
      refine decide_eq_false fun he => ?_
      rw [← he] at hw
      rw [hwait] at hw
      exact Bool.false_ne_true hw
    cases hs : (subdivideMask bit).testBit i <;> simp [hmi, hbi, hi64, hw, hs]

theorem templateOf_moving_subset (B : AtaxxBitboard) (s : Bool) (bit : Nat) :
    movingPlayerOf B s &&& (templateOf B s bit).movingPlayer = movingPlayerOf B s := by
  rw [templateOf_movingPlayer]
  exact landSubset_trans (land_absorb _ _) (land_absorb _ _)

theorem NextBoards_inv {B : AtaxxBitboard} (hB : bitInv B) (s : Bool) :
    ∀ b' ∈ B.NextBoards s, bitInv b' := by
  intro b' hmem
  unfold AtaxxBitboard.NextBoards at hmem
  split at hmem
  · rw [List.mem_singleton] at hmem; subst hmem; exact hB
  · simp only [List.mem_flatMap, List.mem_range] at hmem
    obtain ⟨bit, hbit, hmem⟩ := hmem
    split at hmem
    case isTrue hc =>
      have hE := emptyCells_testBit hbit hc.1
      have hTB := @templateOf_bounded B s bit hB.1 hbit
      have hdisj := templateOf_disjoint hB hbit hE.1 hE.2
      rcases List.mem_append.mp hmem with hj | hs2
      · obtain ⟨nj, hnj, rfl⟩ := mem_jumpLoop _ _ _ hj
        have h1 : (movingPlayerOf B s &&& jumpMask bit) &&& movingPlayerOf B s =
            movingPlayerOf B s &&& jumpMask bit := land_submask_left _ _
        have hsubmov : nj &&& (templateOf B s bit).movingPlayer = nj :=
          landSubset_trans (landSubset_trans hnj h1) (templateOf_moving_subset B s bit)
        have hm'sub := landSubset_xor hsubmov
        have hm'lt : (templateOf B s bit).movingPlayer ^^^ nj < 2 ^ 49 :=
          lt_of_le_of_lt (landSubset_le hm'sub) hTB.1
        have hm'disj : ((templateOf B s bit).movingPlayer ^^^ nj) &&&
            (templateOf B s bit).waitingPlayer = 0 := landSubset_zero hm'sub hdisj
        exact ToMinimaxBoard_inv hm'lt hTB.2 hm'disj s
      · split at hs2
        · rw [List.mem_singleton] at hs2; subst hs2
          exact ToMinimaxBoard_inv hTB.1 hTB.2 hdisj s
        · simp at hs2
    case isFalse => simp at hmem

theorem ReachableBit_inv : ∀ B, ReachableBit B → bitInv B := by
  intro B h
  induction h with
  | start => decide
  | step s _ hmem ih => exact NextBoards_inv ih s _ hmem

theorem Score_eq_popCount (B : AtaxxBitboard) :
    B.Score = (popCountSpec B.maximizingPlayer : Int) - (popCountSpec B.minimizingPlayer : Int) := by
  simp [AtaxxBitboard.Score, PiecesPlaced_eq_popCountSpec]

theorem Score_bounds {B : AtaxxBitboard} (hB : bitBounded B) :
    -49 ≤ B.Score ∧ B.Score ≤ 49 := by
  have h1 : PiecesPlaced B.maximizingPlayer ≤ 49 := PiecesPlaced_le hB.1
  have h2 : PiecesPlaced B.minimizingPlayer ≤ 49 := PiecesPlaced_le hB.2
  unfold AtaxxBitboard.Score
  omega

/-- Claim C7.  Every successor produced by `AtaxxBitboard.NextBoards` for a
board satisfying the two bitboard invariants (disjoint populations, no bits
at index 49 or above) again satisfies them; the score of any such board
equals `popcount(max) - popcount(min)` and lies in `[-49, 49]`; hence the
invariants and the score bound hold for every board reachable from the
starting position. -/
theorem claim_C7_invariants_preserved :
    (∀ B : AtaxxBitboard, bitInv B → ∀ s : Bool, ∀ b' ∈ B.NextBoards s, bitInv b') ∧
    (∀ B : AtaxxBitboard, bitInv B →
      B.Score = (popCountSpec B.maximizingPlayer : Int) - (popCountSpec B.minimizingPlayer : Int) ∧
      -49 ≤ B.Score ∧ B.Score ≤ 49) ∧
    (∀ B : AtaxxBitboard, ReachableBit B →
      bitInv B ∧ -49 ≤ B.Score ∧ B.Score ≤ 49) := by
  refine ⟨fun B hB s => NextBoards_inv hB s,
    fun B hB => ⟨Score_eq_popCount B, Score_bounds hB.1⟩,
    fun B hR => ?_⟩
  have hI := ReachableBit_inv B hR
  exact ⟨hI, Score_bounds hI.1⟩

/-- Witness for C7: the first successor of the starting position (the
maximizer subdivides from bit 0 onto bit 1) satisfies the invariants. -/
theorem claim_C7_witness : bitInv ⟨281474976710659, 4398046511168⟩ :=
  claim_C7_invariants_preserved.1 ⟨281474976710657, 4398046511168⟩ (by decide) true
    ⟨281474976710659, 4398046511168⟩ (by decide)

/-! ### Fold lemmas for the search proofs -/

theorem le_foldl_max : ∀ (l : List Int) (x : Int), x ≤ l.foldl max x := by
  intro l
  induction l with
  | nil => intro x; exact le_refl x
  | cons a l ih =>
    intro x
    calc x ≤ max x a := le_max_left x a
      _ ≤ (a :: l).foldl max x := ih (max x a)

theorem foldl_max_le_of_mem : ∀ {l : List Int} {a : Int} (x : Int), a ∈ l → a ≤ l.foldl max x := by
  intro l
  induction l with
  | nil => intro a x h; exact absurd h (List.not_mem_nil a)
  | cons b l ih =>
    intro a x h
    rcases List.mem_cons.mp h with rfl | h
    · calc a ≤ max x a := le_max_right x a
        _ ≤ (a :: l).foldl max x := le_foldl_max l (max x a)
    · exact ih (max x b) h

theorem foldl_max_le : ∀ (l : List Int) (x y : Int), x ≤ y → (∀ a ∈ l, a ≤ y) →
    l.foldl max x ≤ y := by
  intro l
  induction l with
  | nil => intro x y hx _; exact hx
  | cons a l ih =>
    intro x y hx hl
    exact ih (max x a) y (max_le hx (hl a (List.mem_cons_self a l)))
      fun b hb => hl b (List.mem_cons_of_mem a hb)

theorem foldl_min_le : ∀ (l : List Int) (x : Int), l.foldl min x ≤ x := by
  intro l
  induction l with
  | nil => intro x; exact le_refl x
  | cons a l ih =>
    intro x
    calc (a :: l).foldl min x = l.foldl min (min x a) := rfl
      _ ≤ min x a := ih (min x a)
      _ ≤ x := min_le_left x a

theorem foldl_min_le_of_mem : ∀ {l : List Int} {a : Int} (x : Int), a ∈ l → l.foldl min x ≤ a := by
  intro l
  induction l with
  | nil => intro a x h; exact absurd h (List.not_mem_nil a)
  | cons b l ih =>
    intro a x h
    rcases List.mem_cons.mp h with rfl | h
    · calc (a :: l).foldl min x ≤ min x a := foldl_min_le l (min x a)
        _ ≤ a := min_le_right x a
    · exact ih (min x b) h

theorem le_foldl_min : ∀ (l : List Int) (x y : Int), y ≤ x → (∀ a ∈ l, y ≤ a) →
    y ≤ l.foldl min x := by
  intro l
  induction l with
  | nil => intro x y hx _; exact hx
  | cons a l ih =>
    intro x y hx hl
    exact ih (min x a) y (le_min hx (hl a (List.mem_cons_self a l)))
      fun b hb => hl b (List.mem_cons_of_mem a hb)

theorem foldl_max_neg : ∀ (l : List Int) (x : Int),
    (l.map fun a => -a).foldl max (-x) = -(l.foldl min x) := by
  intro l
  induction l with
  | nil => intro x; rfl
  | cons a l ih =>
    intro x
    have h : max (-x) (-a) = -(min x a) := by omega
    calc ((a :: l).map fun a => -a).foldl max (-x)
        = (l.map fun a => -a).foldl max (max (-x) (-a)) := rfl
      _ = (l.map fun a => -a).foldl max (-(min x a)) := by rw [h]
      _ = -(l.foldl min (min x a)) := ih (min x a)

theorem bestFold_max_snd {G : Type} (f : G → Int) :
    ∀ (l : List G) (p : G × Int),
      (l.foldl (fun best b' => if f b' > best.2 then (b', f b') else best) p).2 =
        (l.map f).foldl max p.2 := by
  intro l
  induction l with
  | nil => intro p; rfl
  | cons b l ih =>
    intro p
    have h : (if f b > p.2 then (b, f b) else p).2 = max p.2 (f b) := by
      by_cases hc : f b > p.2 <;> simp [hc] <;> omega
    calc (List.foldl _ p (b :: l)).2
        = (l.foldl _ (if f b > p.2 then (b, f b) else p)).2 := rfl
      _ = (l.map f).foldl max (if f b > p.2 then (b, f b) else p).2 := ih _
      _ = (l.map f).foldl max (max p.2 (f b)) := by rw [h]

theorem bestMaxFold_snd {G : Type} (f : G → Int) (b : G) (rest : List G) :
    (bestMaxFold f b rest).2 = (rest.map f).foldl max (f b) := by
  have := bestFold_max_snd f rest (b, f b)
  simpa [bestMaxFold] using this

theorem bestFold_min_snd {G : Type} (f : G → Int) :
    ∀ (l : List G) (p : G × Int),
      (l.foldl (fun best b' => if f b' < best.2 then (b', f b') else best) p).2 =
        (l.map f).foldl min p.2 := by
  intro l
  induction l with
  | nil => intro p; rfl
  | cons b l ih =>
    intro p
    have h : (if f b < p.2 then (b, f b) else p).2 = min p.2 (f b) := by
      by_cases hc : f b < p.2 <;> simp [hc] <;> omega
    calc (List.foldl _ p (b :: l)).2
        = (l.foldl _ (if f b < p.2 then (b, f b) else p)).2 := rfl
      _ = (l.map f).foldl min (if f b < p.2 then (b, f b) else p).2 := ih _
      _ = (l.map f).foldl min (min p.2 (f b)) := by rw [h]

theorem bestMinFold_snd {G : Type} (f : G → Int) (b : G) (rest : List G) :
    (bestMinFold f b rest).2 = (rest.map f).foldl min (f b) := by
  have := bestFold_min_snd f rest (b, f b)
  simpa [bestMinFold] using this

/-! ### Fail-soft bounds of the alpha-beta loops

For a child evaluation function `f` whose results bound the child's true
value `val b` from the correct side (the inductive hypothesis at the next
depth), the maximizing loop result `R` satisfies: if `R` rose above the
original `alpha`, it is at most the node value; if `R` stayed below
`beta`, it is at least every processed child value. -/

theorem abMaxLoop_spec {G : Type} (f : Int → G → Int) (val : G → Int) (beta : Int)
    (hf : ∀ a b, a < beta → (f a b > a → f a b ≤ val b) ∧ (f a b < beta → val b ≤ f a b)) :
    ∀ (l : List G) (best : G × Int) (alpha0 alpha' V : Int),
      alpha' = max alpha0 best.2 → alpha' < beta →
      (best.2 > alpha0 → best.2 ≤ V) → (∀ b ∈ l, val b ≤ V) →
      ((abMaxLoop f beta alpha' best l).2 > alpha0 → (abMaxLoop f beta alpha' best l).2 ≤ V) ∧
      ((abMaxLoop f beta alpha' best l).2 < beta →
        best.2 ≤ (abMaxLoop f beta alpha' best l).2 ∧
        ∀ b ∈ l, val b ≤ (abMaxLoop f beta alpha' best l).2) := by
  intro l
  induction l with
  | nil =>
    intro best alpha0 alpha' V _ _ hbest _
    refine ⟨hbest, fun _ => ⟨le_refl _, by simp⟩⟩
  | cons b rest ih =>
    intro best alpha0 alpha' V ha hab hbest hl
    have hchild := hf alpha' b hab
    have hVb : val b ≤ V := hl b (List.mem_cons_self b rest)
    have hVrest : ∀ b' ∈ rest, val b' ≤ V := fun b' hb' => hl b' (List.mem_cons_of_mem b hb')
    rw [abMaxLoop]
    by_cases hvb : f alpha' b > best.2
    · rw [if_pos hvb]
      have hsnd : ((b, f alpha' b) : G × Int).2 = f alpha' b := rfl
      rw [hsnd]
      by_cases hcut : (if f alpha' b > alpha' then f alpha' b else alpha') ≥ beta
      · rw [if_pos hcut]
        rw [hsnd]
        have hvbeta : f alpha' b ≥ beta := by omega
        refine ⟨fun _ => le_trans (hchild.1 (by omega)) hVb, fun hlt => absurd hlt (by omega)⟩
      · rw [if_neg hcut]
        have halpha2 : (if f alpha' b > alpha' then f alpha' b else alpha') =
            max alpha0 (f alpha' b) := by omega
        have hbest2 : f alpha' b > alpha0 → f alpha' b ≤ V := fun h =>
          le_trans (hchild.1 (by omega)) hVb
        obtain ⟨c1, c2⟩ := ih (b, f alpha' b) alpha0 _ V halpha2 (by omega) hbest2 hVrest
        refine ⟨c1, fun hR => ?_⟩
        obtain ⟨h1, h2⟩ := c2 hR
        rw [hsnd] at h1
        refine ⟨le_trans (le_of_lt hvb) h1, fun b' hb' => ?_⟩
        rcases List.mem_cons.mp hb' with rfl | hb'
        · exact le_trans (hchild.2 (by omega)) h1
        · exact h2 b' hb'
    · rw [if_neg hvb]
      have hcut : ¬ ((if best.2 > alpha' then best.2 else alpha') ≥ beta) := by omega
      rw [if_neg hcut]
      have halpha2 : (if best.2 > alpha' then best.2 else alpha') = max alpha0 best.2 := by
        omega
      obtain ⟨c1, c2⟩ := ih best alpha0 _ V halpha2 (by omega) hbest hVrest
      refine ⟨c1, fun hR => ?_⟩
      obtain ⟨h1, h2⟩ := c2 hR
      refine ⟨h1, fun b' hb' => ?_⟩
      rcases List.mem_cons.mp hb' with rfl | hb'
      · exact le_trans (hchild.2 (by omega)) (le_trans (by omega) h1)
      · exact h2 b' hb'

theorem abMaxGo_spec {G : Type} (f : Int → G → Int) (val : G → Int) (beta : Int)
    (hf : ∀ a b, a < beta → (f a b > a → f a b ≤ val b) ∧ (f a b < beta → val b ≤ f a b))
    (alpha : Int) (b : G) (rest : List G) (hab : alpha < beta) (V : Int)
    (hVb : val b ≤ V) (hVrest : ∀ b' ∈ rest, val b' ≤ V) :
    ((abMaxGo f beta alpha b rest).2 > alpha → (abMaxGo f beta alpha b rest).2 ≤ V) ∧
    ((abMaxGo f beta alpha b rest).2 < beta →
      val b ≤ (abMaxGo f beta alpha b rest).2 ∧
      ∀ b' ∈ rest, val b' ≤ (abMaxGo f beta alpha b rest).2) := by
  have hchild := hf alpha b hab
  rw [abMaxGo]
  have hsnd : ((b, f alpha b) : G × Int).2 = f alpha b := rfl
  by_cases hcut : (if f alpha b > alpha then f alpha b else alpha) ≥ beta
  · rw [if_pos hcut]
    rw [hsnd]
    have hvbeta : f alpha b ≥ beta := by omega
    refine ⟨fun _ => le_trans (hchild.1 (by omega)) hVb, fun hlt => absurd hlt (by omega)⟩
  · rw [if_neg hcut]
    have halpha2 : (if f alpha b > alpha then f alpha b else alpha) =
        max alpha (f alpha b) := by omega
    have hbest2 : f alpha b > alpha → f alpha b ≤ V := fun h =>
      le_trans (hchild.1 (by omega)) hVb
    obtain ⟨c1, c2⟩ := abMaxLoop_spec f val beta hf rest (b, f alpha b) alpha _ V
      halpha2 (by omega) hbest2 hVrest
    refine ⟨c1, fun hR => ?_⟩
    obtain ⟨h1, h2⟩ := c2 hR
    rw [hsnd] at h1
    exact ⟨le_trans (hchild.2 (by omega)) h1, h2⟩

theorem abMinLoop_spec {G : Type} (f : Int → G → Int) (val : G → Int) (alpha : Int)
    (hf : ∀ bb b, alpha < bb → (f bb b > alpha → f bb b ≤ val b) ∧ (f bb b < bb → val b ≤ f bb b)) :
    ∀ (l : List G) (best : G × Int) (beta0 beta' V : Int),
      beta' = min beta0 best.2 → alpha < beta' →
      (best.2 < beta0 → V ≤ best.2) → (∀ b ∈ l, V ≤ val b) →
      ((abMinLoop f alpha beta' best l).2 < beta0 → V ≤ (abMinLoop f alpha beta' best l).2) ∧
      ((abMinLoop f alpha beta' best l).2 > alpha →
        (abMinLoop f alpha beta' best l).2 ≤ best.2 ∧
        ∀ b ∈ l, (abMinLoop f alpha beta' best l).2 ≤ val b) := by
  intro l
  induction l with
  | nil =>
    intro best beta0 beta' V _ _ hbest _
    refine ⟨hbest, fun _ => ⟨le_refl _, by simp⟩⟩
  | cons b rest ih =>
    intro best beta0 beta' V hb hab hbest hl
    have hchild := hf beta' b hab
    have hVb : V ≤ val b := hl b (List.mem_cons_self b rest)
    have hVrest : ∀ b' ∈ rest, V ≤ val b' := fun b' hb' => hl b' (List.mem_cons_of_mem b hb')
    rw [abMinLoop]
    by_cases hvb : f beta' b < best.2
    · rw [if_pos hvb]
      have hsnd : ((b, f beta' b) : G × Int).2 = f beta' b := rfl
      rw [hsnd]
      by_cases hcut : alpha ≥ (if f beta' b < beta' then f beta' b else beta')
      · rw [if_pos hcut]
        rw [hsnd]
        have hvalpha : f beta' b ≤ alpha := by omega
        refine ⟨fun _ => le_trans hVb (hchild.2 (by omega)), fun hgt => absurd hgt (by omega)⟩
      · rw [if_neg hcut]
        have hbeta2 : (if f beta' b < beta' then f beta' b else beta') =
            min beta0 (f beta' b) := by omega
        have hbest2 : f beta' b < beta0 → V ≤ f beta' b := fun h =>
          le_trans hVb (hchild.2 (by omega))
        obtain ⟨c1, c2⟩ := ih (b, f beta' b) beta0 _ V hbeta2 (by omega) hbest2 hVrest
        refine ⟨c1, fun hR => ?_⟩
        obtain ⟨h1, h2⟩ := c2 hR
        rw [hsnd] at h1
        refine ⟨le_trans h1 (le_of_lt hvb), fun b' hb' => ?_⟩
        rcases List.mem_cons.mp hb' with rfl | hb'
        · exact le_trans h1 (hchild.1 (by omega))
        · exact h2 b' hb'
    · rw [if_neg hvb]
      have hcut : ¬ (alpha ≥ (if best.2 < beta' then best.2 else beta')) := by omega
      rw [if_neg hcut]
      have hbeta2 : (if best.2 < beta' then best.2 else beta') = min beta0 best.2 := by
        omega
      obtain ⟨c1, c2⟩ := ih best beta0 _ V hbeta2 (by omega) hbest hVrest
      refine ⟨c1, fun hR => ?_⟩
      obtain ⟨h1, h2⟩ := c2 hR
      refine ⟨h1, fun b' hb' => ?_⟩
      rcases List.mem_cons.mp hb' with rfl | hb'
      · exact le_trans (le_trans h1 (by omega)) (hchild.1 (by omega))
      · exact h2 b' hb'

theorem abMinGo_spec {G : Type} (f : Int → G → Int) (val : G → Int) (alpha : Int)
    (hf : ∀ bb b, alpha < bb → (f bb b > alpha → f bb b ≤ val b) ∧ (f bb b < bb → val b ≤ f bb b))
    (beta : Int) (b : G) (rest : List G) (hab : alpha < beta) (V : Int)
    (hVb : V ≤ val b) (hVrest : ∀ b' ∈ rest, V ≤ val b') :
    ((abMinGo f alpha beta b rest).2 < beta → V ≤ (abMinGo f alpha beta b rest).2) ∧
    ((abMinGo f alpha beta b rest).2 > alpha →
      (abMinGo f alpha beta b rest).2 ≤ val b ∧
      ∀ b' ∈ rest, (abMinGo f alpha beta b rest).2 ≤ val b') := by
  have hchild := hf beta b hab
  rw [abMinGo]
  have hsnd : ((b, f beta b) : G × Int).2 = f beta b := rfl
  by_cases hcut : alpha ≥ (if f beta b < beta then f beta b else beta)
  · rw [if_pos hcut]
    rw [hsnd]
    have hvalpha : f beta b ≤ alpha := by omega
    refine ⟨fun _ => le_trans hVb (hchild.2 (by omega)), fun hgt => absurd hgt (by omega)⟩
  · rw [if_neg hcut]
    have hbeta2 : (if f beta b < beta then f beta b else beta) =
        min beta (f beta b) := by omega
    have hbest2 : f beta b < beta → V ≤ f beta b := fun h =>
      le_trans hVb (hchild.2 (by omega))
    obtain ⟨c1, c2⟩ := abMinLoop_spec f val alpha hf rest (b, f beta b) beta _ V
      hbeta2 (by omega) hbest2 hVrest
    refine ⟨c1, fun hR => ?_⟩
    obtain ⟨h1, h2⟩ := c2 hR
    rw [hsnd] at h1
    exact ⟨le_trans h1 (hchild.1 (by omega)), h2⟩

theorem AlphaBeta_le_ge {G : Type} (score : G → Int) (next : G → Int → List G) :
    ∀ (d : Nat) (g : G) (m : Bool) (alpha beta : Int), alpha < beta →
      ((AlphaBeta score next d g m alpha beta).2 > alpha →
        (AlphaBeta score next d g m alpha beta).2 ≤ gameValue score next d g m) ∧
      ((AlphaBeta score next d g m alpha beta).2 < beta →
        gameValue score next d g m ≤ (AlphaBeta score next d g m alpha beta).2) := by
  intro d
  induction d with
  | zero =>
    intro g m alpha beta hab
    cases m
    · rcases hn : next g (colorOf false) with _ | ⟨b, rest⟩
      · simp [AlphaBeta, gameValue, hn]
      · simp only [AlphaBeta, gameValue, hn]
        rw [if_neg (by simp), if_neg (by simp), bestMinFold_snd]
        exact ⟨fun _ => le_refl _, fun _ => le_refl _⟩
    · rcases hn : next g (colorOf true) with _ | ⟨b, rest⟩
      · simp [AlphaBeta, gameValue, hn]
      · simp only [AlphaBeta, gameValue, hn]
        rw [if_pos (by trivial), if_pos (by trivial), bestMaxFold_snd]
        exact ⟨fun _ => le_refl _, fun _ => le_refl _⟩
  | succ d ih =>
    intro g m alpha beta hab
    cases m
    · rcases hn : next g (colorOf false) with _ | ⟨b, rest⟩
      · simp [AlphaBeta, gameValue, hn]
      · have hAB : AlphaBeta score next (d + 1) g false alpha beta =
            abMinGo (fun bb b' => (AlphaBeta score next d b' true alpha bb).2)
              alpha beta b rest := by
          simp only [AlphaBeta, hn]
          rw [if_neg (by simp)]
        have hgv : gameValue score next (d + 1) g false =
            (rest.map fun b' => gameValue score next d b' true).foldl min
              (gameValue score next d b true) := by
          simp only [gameValue, hn]
          rw [if_neg (by simp)]
        have hfspec : ∀ bb b', alpha < bb →
            ((AlphaBeta score next d b' true alpha bb).2 > alpha →
              (AlphaBeta score next d b' true alpha bb).2 ≤ gameValue score next d b' true) ∧
            ((AlphaBeta score next d b' true alpha bb).2 < bb →
              gameValue score next d b' true ≤ (AlphaBeta score next d b' true alpha bb).2) :=
          fun bb b' h => ih b' true alpha bb h
        have hVb : (rest.map fun b' => gameValue score next d b' true).foldl min
            (gameValue score next d b true) ≤ gameValue score next d b true :=
          foldl_min_le _ _
        have hVrest : ∀ b' ∈ rest,
            (rest.map fun b' => gameValue score next d b' true).foldl min
              (gameValue score next d b true) ≤ gameValue score next d b' true :=
          fun b' hb' => foldl_min_le_of_mem _ (List.mem_map_of_mem _ hb')
        obtain ⟨c1, c2⟩ := abMinGo_spec
          (fun bb b' => (AlphaBeta score next d b' true alpha bb).2)
          (fun b' => gameValue score next d b' true) alpha hfspec beta b rest hab _
          hVb hVrest
        rw [hAB, hgv]
        constructor
        · intro hgt
          obtain ⟨h1, h2⟩ := c2 hgt
          refine le_foldl_min _ _ _ h1 fun a ha => ?_
          obtain ⟨b', hb', rfl⟩ := List.mem_map.mp ha
          exact h2 b' hb'
        · exact c1
    · rcases hn : next g (colorOf true) with _ | ⟨b, rest⟩
      · simp [AlphaBeta, gameValue, hn]
      · have hAB : AlphaBeta score next (d + 1) g true alpha beta =
            abMaxGo (fun a b' => (AlphaBeta score next d b' false a beta).2)
              beta alpha b rest := by
          simp only [AlphaBeta, hn]
          rw [if_pos (by trivial)]
        have hgv : gameValue score next (d + 1) g true =
            (rest.map fun b' => gameValue score next d b' false).foldl max
              (gameValue score next d b false) := by
          simp only [gameValue, hn]
          rw [if_pos (by trivial)]
        have hfspec : ∀ a b', a < beta →
            ((AlphaBeta score next d b' false a beta).2 > a →
              (AlphaBeta score next d b' false a beta).2 ≤ gameValue score next d b' false) ∧
            ((AlphaBeta score next d b' false a beta).2 < beta →
              gameValue score next d b' false ≤ (AlphaBeta score next d b' false a beta).2) :=
          fun a b' h => ih b' false a beta h
        have hVb : gameValue score next d b false ≤
            (rest.map fun b' => gameValue score next d b' false).foldl max
              (gameValue score next d b false) :=
          le_foldl_max _ _
        have hVrest : ∀ b' ∈ rest, gameValue score next d b' false ≤
            (rest.map fun b' => gameValue score next d b' false).foldl max
              (gameValue score next d b false) :=
          fun b' hb' => foldl_max_le_of_mem _ (List.mem_map_of_mem _ hb')
        obtain ⟨c1, c2⟩ := abMaxGo_spec
          (fun a b' => (AlphaBeta score next d b' false a beta).2)
          (fun b' => gameValue score next d b' false) beta hfspec alpha b rest hab _
          hVb hVrest
        rw [hAB, hgv]
        constructor
        · exact c1
        · intro hlt
          obtain ⟨h1, h2⟩ := c2 hlt
          refine foldl_max_le _ _ _ h1 fun a ha => ?_
          obtain ⟨b', hb', rfl⟩ := List.mem_map.mp ha
          exact h2 b' hb'

/-! ### Score bounds through the search, and the negamax relation -/

theorem gameValue_bounds {G : Type} (score : G → Int) (next : G → Int → List G)
    (P : G → Prop) (hnext : ∀ g c, P g → ∀ b ∈ next g c, P b)
    (hsc : ∀ g, P g → -49 ≤ score g ∧ score g ≤ 49) :
    ∀ (d : Nat) (g : G) (m : Bool), P g →
      -49 ≤ gameValue score next d g m ∧ gameValue score next d g m ≤ 49 := by
  intro d
  induction d with
  | zero =>
    intro g m hP
    rcases hn : next g (colorOf m) with _ | ⟨b, rest⟩
    · simp only [gameValue, hn]
      exact hsc g hP
    · have hPb := hnext g (colorOf m) hP b (hn ▸ List.mem_cons_self b rest)
      have hmem : ∀ a ∈ rest.map score, -49 ≤ a ∧ a ≤ 49 := by
        intro a ha
        obtain ⟨b', hb', rfl⟩ := List.mem_map.mp ha
        exact hsc b' (hnext g (colorOf m) hP b' (hn ▸ List.mem_cons_of_mem b hb'))
      simp only [gameValue, hn]
      cases m
      · rw [if_neg (by simp)]
        constructor
        · exact le_foldl_min _ _ _ (hsc b hPb).1 fun a ha => (hmem a ha).1
        · exact le_trans (foldl_min_le _ _) (hsc b hPb).2
      · rw [if_pos (by trivial)]
        constructor
        · exact le_trans (hsc b hPb).1 (le_foldl_max _ _)
        · exact foldl_max_le _ _ _ (hsc b hPb).2 fun a ha => (hmem a ha).2
  | succ d ih =>
    intro g m hP
    rcases hn : next g (colorOf m) with _ | ⟨b, rest⟩
    · simp only [gameValue, hn]
      exact hsc g hP
    · have hPb := hnext g (colorOf m) hP b (hn ▸ List.mem_cons_self b rest)
      simp only [gameValue, hn]
      cases m
      · have hmem : ∀ a ∈ rest.map fun b' => gameValue score next d b' true,
            -49 ≤ a ∧ a ≤ 49 := by
          intro a ha
          obtain ⟨b', hb', rfl⟩ := List.mem_map.mp ha
          exact ih b' true (hnext g (colorOf false) hP b' (hn ▸ List.mem_cons_of_mem b hb'))
        rw [if_neg (by simp)]
        constructor
        · exact le_foldl_min _ _ _ (ih b true hPb).1 fun a ha => (hmem a ha).1
        · exact le_trans (foldl_min_le _ _) (ih b true hPb).2
      · have hmem : ∀ a ∈ rest.map fun b' => gameValue score next d b' false,
            -49 ≤ a ∧ a ≤ 49 := by
          intro a ha
          obtain ⟨b', hb', rfl⟩ := List.mem_map.mp ha
          exact ih b' false (hnext g (colorOf true) hP b' (hn ▸ List.mem_cons_of_mem b hb'))
        rw [if_pos (by trivial)]
        constructor
        · exact le_trans (ih b false hPb).1 (le_foldl_max _ _)
        · exact foldl_max_le _ _ _ (ih b false hPb).2 fun a ha => (hmem a ha).2

theorem abMaxLoop_bounds {G : Type} (f : Int → G → Int) (beta lo hi : Int) :
    ∀ (l : List G) (alpha : Int) (best : G × Int), lo ≤ best.2 → best.2 ≤ hi →
      (∀ b ∈ l, ∀ a, lo ≤ f a b ∧ f a b ≤ hi) →
      lo ≤ (abMaxLoop f beta alpha best l).2 ∧ (abMaxLoop f beta alpha best l).2 ≤ hi := by
  intro l
  induction l with
  | nil => intro alpha best h1 h2 _; exact ⟨h1, h2⟩
  | cons b rest ih =>
    intro alpha best h1 h2 hl
    have hfb := hl b (List.mem_cons_self b rest) alpha
    have hrest : ∀ b' ∈ rest, ∀ a, lo ≤ f a b' ∧ f a b' ≤ hi :=
      fun b' hb' => hl b' (List.mem_cons_of_mem b hb')
    rw [abMaxLoop]
    by_cases hvb : f alpha b > best.2
    · rw [if_pos hvb]
      have hsnd : ((b, f alpha b) : G × Int).2 = f alpha b := rfl
      by_cases hcut : (if ((b, f alpha b) : G × Int).2 > alpha then
          ((b, f alpha b) : G × Int).2 else alpha) ≥ beta
      · rw [if_pos hcut, hsnd]; exact ⟨hfb.1, hfb.2⟩
      · rw [if_neg hcut]
        exact ih _ (b, f alpha b) hfb.1 hfb.2 hrest
    · rw [if_neg hvb]
      by_cases hcut : (if best.2 > alpha then best.2 else alpha) ≥ beta
      · rw [if_pos hcut]; exact ⟨h1, h2⟩
      · rw [if_neg hcut]
        exact ih _ best h1 h2 hrest

theorem abMinLoop_bounds {G : Type} (f : Int → G → Int) (alpha lo hi : Int) :
    ∀ (l : List G) (beta : Int) (best : G × Int), lo ≤ best.2 → best.2 ≤ hi →
      (∀ b ∈ l, ∀ bb, lo ≤ f bb b ∧ f bb b ≤ hi) →
      lo ≤ (abMinLoop f alpha beta best l).2 ∧ (abMinLoop f alpha beta best l).2 ≤ hi := by
  intro l
  induction l with
  | nil => intro beta best h1 h2 _; exact ⟨h1, h2⟩
  | cons b rest ih =>
    intro beta best h1 h2 hl
    have hfb := hl b (List.mem_cons_self b rest) beta
    have hrest : ∀ b' ∈ rest, ∀ bb, lo ≤ f bb b' ∧ f bb b' ≤ hi :=
      fun b' hb' => hl b' (List.mem_cons_of_mem b hb')
    rw [abMinLoop]
    by_cases hvb : f beta b < best.2
    · rw [if_pos hvb]
      have hsnd : ((b, f beta b) : G × Int).2 = f beta b := rfl
      by_cases hcut : alpha ≥ (if ((b, f beta b) : G × Int).2 < beta then
          ((b, f beta b) : G × Int).2 else beta)
      · rw [if_pos hcut, hsnd]; exact ⟨hfb.1, hfb.2⟩
      · rw [if_neg hcut]
        exact ih _ (b, f beta b) hfb.1 hfb.2 hrest
    · rw [if_neg hvb]
      by_cases hcut : alpha ≥ (if best.2 < beta then best.2 else beta)
      · rw [if_pos hcut]; exact ⟨h1, h2⟩
      · rw [if_neg hcut]
        exact ih _ best h1 h2 hrest

theorem AlphaBeta_bounds {G : Type} (score : G → Int) (next : G → Int → List G)
    (P : G → Prop) (hnext : ∀ g c, P g → ∀ b ∈ next g c, P b)
    (hsc : ∀ g, P g → -49 ≤ score g ∧ score g ≤ 49) :
    ∀ (d : Nat) (g : G) (m : Bool) (alpha beta : Int), P g →
      -49 ≤ (AlphaBeta score next d g m alpha beta).2 ∧
      (AlphaBeta score next d g m alpha beta).2 ≤ 49 := by
  intro d
  induction d with
  | zero =>
    intro g m alpha beta hP
    rcases hn : next g (colorOf m) with _ | ⟨b, rest⟩
    · simp only [AlphaBeta, hn]
      exact hsc g hP
    · have hPb := hnext g (colorOf m) hP b (hn ▸ List.mem_cons_self b rest)
      have hmem : ∀ a ∈ rest.map score, -49 ≤ a ∧ a ≤ 49 := by
        intro a ha
        obtain ⟨b', hb', rfl⟩ := List.mem_map.mp ha
        exact hsc b' (hnext g (colorOf m) hP b' (hn ▸ List.mem_cons_of_mem b hb'))
      simp only [AlphaBeta, hn]
      cases m
      · rw [if_neg (by simp), bestMinFold_snd]
        constructor
        · exact le_foldl_min _ _ _ (hsc b hPb).1 fun a ha => (hmem a ha).1
        · exact le_trans (foldl_min_le _ _) (hsc b hPb).2
      · rw [if_pos (by trivial), bestMaxFold_snd]
        constructor
        · exact le_trans (hsc b hPb).1 (le_foldl_max _ _)
        · exact foldl_max_le _ _ _ (hsc b hPb).2 fun a ha => (hmem a ha).2
  | succ d ih =>
    intro g m alpha beta hP
    rcases hn : next g (colorOf m) with _ | ⟨b, rest⟩
    · simp only [AlphaBeta, hn]
      exact hsc g hP
    · have hPb := hnext g (colorOf m) hP b (hn ▸ List.mem_cons_self b rest)
      simp only [AlphaBeta, hn]
      cases m
      · rw [if_neg (by simp)]
        have hchild : ∀ b' ∈ rest, ∀ bb,
            -49 ≤ (AlphaBeta score next d b' true alpha bb).2 ∧
            (AlphaBeta score next d b' true alpha bb).2 ≤ 49 := fun b' hb' bb =>
          ih b' true alpha bb (hnext g (colorOf false) hP b' (hn ▸ List.mem_cons_of_mem b hb'))
        have hfb := ih b true alpha beta hPb
        rw [abMinGo]
        by_cases hcut : alpha ≥ (if (AlphaBeta score next d b true alpha beta).2 < beta then
            (AlphaBeta score next d b true alpha beta).2 else beta)
        · rw [if_pos hcut]; exact hfb
        · rw [if_neg hcut]
          exact abMinLoop_bounds _ alpha (-49) 49 rest _ (b, _) hfb.1 hfb.2 hchild
      · rw [if_pos (by trivial)]
        have hchild : ∀ b' ∈ rest, ∀ a,
            -49 ≤ (AlphaBeta score next d b' false a beta).2 ∧
            (AlphaBeta score next d b' false a beta).2 ≤ 49 := fun b' hb' a =>
          ih b' false a beta (hnext g (colorOf true) hP b' (hn ▸ List.mem_cons_of_mem b hb'))
        have hfb := ih b false alpha beta hPb
        rw [abMaxGo]
        by_cases hcut : (if (AlphaBeta score next d b false alpha beta).2 > alpha then
            (AlphaBeta score next d b false alpha beta).2 else alpha) ≥ beta
        · rw [if_pos hcut]; exact hfb
        · rw [if_neg hcut]
          exact abMaxLoop_bounds _ beta (-49) 49 rest _ (b, _) hfb.1 hfb.2 hchild

theorem Minimax_zero {G : Type} (score : G → Int) (next : G → Int → List G)
    (g : G) (c : Int) :
    Minimax score next 0 g c = match next g c with
      | [] => (g, c * score g)
      | b :: rest => bestMaxFold (fun b' => c * score b') b rest := rfl

theorem Minimax_succ {G : Type} (score : G → Int) (next : G → Int → List G)
    (d : Nat) (g : G) (c : Int) :
    Minimax score next (d + 1) g c = match next g c with
      | [] => (g, c * score g)
      | b :: rest => bestMaxFold (fun b' => -(Minimax score next d b' (-c)).2) b rest := rfl

theorem gameValue_zero_true {G : Type} (score : G → Int) (next : G → Int → List G)
    (g : G) :
    gameValue score next 0 g true = match next g 1 with
      | [] => score g
      | b :: rest => (rest.map score).foldl max (score b) := rfl

theorem gameValue_zero_false {G : Type} (score : G → Int) (next : G → Int → List G)
    (g : G) :
    gameValue score next 0 g false = match next g (-1) with
      | [] => score g
      | b :: rest => (rest.map score).foldl min (score b) := rfl

theorem gameValue_succ_true {G : Type} (score : G → Int) (next : G → Int → List G)
    (d : Nat) (g : G) :
    gameValue score next (d + 1) g true = match next g 1 with
      | [] => score g
      | b :: rest =>
        (rest.map fun b' => gameValue score next d b' false).foldl max
          (gameValue score next d b false) := rfl

theorem gameValue_succ_false {G : Type} (score : G → Int) (next : G → Int → List G)
    (d : Nat) (g : G) :
    gameValue score next (d + 1) g false = match next g (-1) with
      | [] => score g
      | b :: rest =>
        (rest.map fun b' => gameValue score next d b' true).foldl min
          (gameValue score next d b true) := rfl

theorem Minimax_gameValue {G : Type} (score : G → Int) (next : G → Int → List G) :
    ∀ d : Nat, (∀ g : G, (Minimax score next d g 1).2 = gameValue score next d g true) ∧
      (∀ g : G, (Minimax score next d g (-1)).2 = - gameValue score next d g false) := by
  intro d
  induction d with
  | zero =>
    constructor
    · intro g
      rw [Minimax_zero, gameValue_zero_true]
      rcases hn : next g 1 with _ | ⟨b, rest⟩
      · show (1 : Int) * score g = score g
        rw [one_mul]
      · show (bestMaxFold (fun b' => 1 * score b') b rest).2 =
          (rest.map score).foldl max (score b)
        rw [bestMaxFold_snd]
        have hfeq : (fun b' => (1 : Int) * score b') = fun b' => score b' := by
          funext b'; rw [one_mul]
        rw [hfeq, one_mul]
    · intro g
      rw [Minimax_zero, gameValue_zero_false]
      rcases hn : next g (-1) with _ | ⟨b, rest⟩
      · show (-1 : Int) * score g = -(score g)
        rw [neg_one_mul]
      · show (bestMaxFold (fun b' => -1 * score b') b rest).2 =
          -((rest.map score).foldl min (score b))
        rw [bestMaxFold_snd]
        have hfeq : (fun b' => (-1 : Int) * score b') = fun b' => -(score b') := by
          funext b'; rw [neg_one_mul]
        rw [hfeq, neg_one_mul]
        have hmm : rest.map (fun b' => -(score b')) = (rest.map score).map fun a => -a := by
          rw [List.map_map]; rfl
        rw [hmm]
        exact foldl_max_neg (rest.map score) (score b)
  | succ d ih =>
    constructor
    · intro g
      rw [Minimax_succ, gameValue_succ_true]
      rcases hn : next g 1 with _ | ⟨b, rest⟩
      · show (1 : Int) * score g = score g
        rw [one_mul]
      · show (bestMaxFold (fun b' => -(Minimax score next d b' (-1)).2) b rest).2 =
          (rest.map fun b' => gameValue score next d b' false).foldl max
            (gameValue score next d b false)
        rw [bestMaxFold_snd]
        have hfeq : (fun b' => -(Minimax score next d b' (-1)).2) =
            fun b' => gameValue score next d b' false := by
          funext b'
          rw [ih.2 b', neg_neg]
        rw [hfeq, ih.2 b, neg_neg]
    · intro g
      rw [Minimax_succ, gameValue_succ_false]
      rcases hn : next g (-1) with _ | ⟨b, rest⟩
      · show (-1 : Int) * score g = -(score g)
        rw [neg_one_mul]
      · show (bestMaxFold (fun b' => -(Minimax score next d b' (-(-1))).2) b rest).2 =
          -((rest.map fun b' => gameValue score next d b' true).foldl min
            (gameValue score next d b true))
        rw [bestMaxFold_snd]
        have hfeq : (fun b' => -(Minimax score next d b' (-(-1))).2) =
            fun b' => -(gameValue score next d b' true) := by
          funext b'
          rw [show (-(-1) : Int) = 1 from by norm_num, ih.1 b']
        rw [hfeq, show (-(-1) : Int) = 1 from by norm_num, ih.1 b]
        have hmm : rest.map (fun b' => -(gameValue score next d b' true)) =
            (rest.map fun b' => gameValue score next d b' true).map fun a => -a := by
          rw [List.map_map]; rfl
        rw [hmm]
        exact foldl_max_neg _ _

theorem AlphaBeta_eq_Minimax {G : Type} (score : G → Int) (next : G → Int → List G)
    (P : G → Prop) (hnext : ∀ g c, P g → ∀ b ∈ next g c, P b)
    (hsc : ∀ g, P g → -49 ≤ score g ∧ score g ≤ 49)
    (d : Nat) (g : G) (m : Bool) (hP : P g) :
    (AlphaBeta score next d g m (-49) 49).2 =
      (Minimax score next d g (colorOf m)).2 * colorOf m := by
  have hval : (AlphaBeta score next d g m (-49) 49).2 = gameValue score next d g m := by
    have h1 := AlphaBeta_le_ge score next d g m (-49) 49 (by norm_num)
    have h2 := AlphaBeta_bounds score next P hnext hsc d g m (-49) 49 hP
    have h3 := gameValue_bounds score next P hnext hsc d g m hP
    omega
  rw [hval]
  cases m
  · rw [show colorOf false = -1 from rfl, (Minimax_gameValue score next d).2 g]
    ring
  · rw [show colorOf true = 1 from rfl, (Minimax_gameValue score next d).1 g]
    ring

/-- Claim C4.  For every bitboard `B` satisfying the data-model invariants,
every side `s` and every depth `d ≤ 4`, the score returned by
`AlphaBeta(B, s, d, -49, 49)` equals the score returned by
`Minimax(B, color_of(s), d)` multiplied by `sign(s)` (`+1` for the
maximizer, `-1` for the minimizer).  Proved for all depths through the
fail-soft bound lemmas of the alpha-beta loops, using that all scores the
search can see lie inside the `(-49, 49)` window's closure. -/
theorem claim_C4_alphabeta_equals_minimax (B : AtaxxBitboard)
    (h1 : B.maximizingPlayer < 2 ^ 49) (h2 : B.minimizingPlayer < 2 ^ 49)
    (h3 : B.maximizingPlayer &&& B.minimizingPlayer = 0)
    (s : Bool) (d : Nat) (hd : d ≤ 4) :
    (AlphaBeta bitScore bitNext d B s (-49) 49).2 =
      (Minimax bitScore bitNext d B (colorOf s)).2 * colorOf s :=
  AlphaBeta_eq_Minimax bitScore bitNext bitInv
    (fun g c hg b hb => NextBoards_inv hg (c == 1) b hb)
    (fun g hg => Score_bounds hg.1)
    d B s ⟨⟨h1, h2⟩, h3⟩

/-- Witness for C4 at the starting position, maximizer to move, depth 1. -/
theorem claim_C4_witness :
    (AlphaBeta bitScore bitNext 1 NewBitGame true (-49) 49).2 =
      (Minimax bitScore bitNext 1 NewBitGame (colorOf true)).2 * colorOf true :=
  claim_C4_alphabeta_equals_minimax NewBitGame (by decide) (by decide) (by decide)
    true 1 (by decide)

theorem tableInsert_length (key : AtaxxBitTransposition) (v : AtaxxBitTranspositionResult) :
    ∀ entries, (tableInsert entries key v).length ≤ entries.length + 1 := by
  intro entries
  induction entries with
  | nil => simp [tableInsert]
  | cons kv rest ih =>
    rw [tableInsert]
    split
    · simp
    · simpa using ih

theorem Store_maxSize (table : AtaxxBitTranspositionTable) (g : AtaxxBitboard)
    (m : Bool) (d : Nat) (a bb : Int) (rb : AtaxxBitboard) (rs : Int) :
    (table.Store g m d a bb rb rs).maxSize = table.maxSize := rfl

theorem Store_length_le {n : Nat} (hn : 1 ≤ n) (table : AtaxxBitTranspositionTable)
    (hmax : table.maxSize = n) (hlen : table.transpositionMap.length ≤ n)
    (g : AtaxxBitboard) (m : Bool) (d : Nat) (a bb : Int) (rb : AtaxxBitboard) (rs : Int) :
    (table.Store g m d a bb rb rs).transpositionMap.length ≤ n := by
  unfold AtaxxBitTranspositionTable.Store
  split
  · simpa [tableInsert] using hn
  · have := tableInsert_length
      (⟨g, m, d, a, bb⟩ : AtaxxBitTransposition) ⟨rb, rs⟩ table.transpositionMap
    show (tableInsert table.transpositionMap ⟨g, m, d, a, bb⟩ ⟨rb, rs⟩).length ≤ n
    omega

/-- Claim C8.  A `Store` into a table holding exactly its capacity `n`
clears the map before inserting, leaving exactly one entry; consequently,
starting from a fresh table of capacity `n ≥ 1`, no sequence of stores
ever leaves more than `n` entries. -/
theorem claim_C8_flush_on_full (n : Nat) (hn : 1 ≤ n) :
    (∀ (t : AtaxxBitTranspositionTable) (g : AtaxxBitboard) (m : Bool) (d : Nat)
      (a bb : Int) (rb : AtaxxBitboard) (rs : Int),
      t.maxSize = n → t.transpositionMap.length = n →
      (t.Store g m d a bb rb rs).transpositionMap.length = 1) ∧
    (∀ ops, ((applyStores (NewBitTranspositionTable n) ops).transpositionMap.length ≤ n)) := by
  constructor
  · intro t g m d a bb rb rs hmax hlen
    unfold AtaxxBitTranspositionTable.Store
    rw [if_pos (by omega)]
    rfl
  · intro ops
    suffices h : ∀ t : AtaxxBitTranspositionTable, t.maxSize = n →
        t.transpositionMap.length ≤ n →
        (applyStores t ops).transpositionMap.length ≤ n ∧
        (applyStores t ops).maxSize = n by
      exact (h (NewBitTranspositionTable n) rfl (by simp [NewBitTranspositionTable])).1
    induction ops with
    | nil => intro t h1 h2; exact ⟨h2, h1⟩
    | cons op rest ih =>
      intro t h1 h2
      refine ih (t.Store op.1.board op.1.maximizingPlayer op.1.depth op.1.alpha op.1.beta
        op.2.resultBoard op.2.resultScore) ?_ ?_
      · rw [Store_maxSize]; exact h1
      · exact Store_length_le hn t h1 h2 op.1.board op.1.maximizingPlayer op.1.depth
          op.1.alpha op.1.beta op.2.resultBoard op.2.resultScore

/-- Witness for C8 with capacity 1: storing into the full one-entry table
flushes it down to a single entry, and two stores never exceed capacity. -/
theorem claim_C8_witness :
    (((NewBitTranspositionTable 1).Store ⟨0, 0⟩ true 0 0 0 ⟨0, 0⟩ 0).Store
        ⟨1, 0⟩ true 0 0 0 ⟨0, 0⟩ 0).transpositionMap.length = 1 :=
  (claim_C8_flush_on_full 1 (by decide)).1
    ((NewBitTranspositionTable 1).Store ⟨0, 0⟩ true 0 0 0 ⟨0, 0⟩ 0)
    ⟨1, 0⟩ true 0 0 0 ⟨0, 0⟩ 0 (by decide) (by decide)

theorem tableFind_insert (key key' : AtaxxBitTransposition)
    (v : AtaxxBitTranspositionResult) :
    ∀ entries, tableFind (tableInsert entries key v) key' =
      if key = key' then some v else tableFind entries key' := by
  intro entries
  induction entries with
  | nil => rfl
  | cons kv rest ih =>
    obtain ⟨k, v'⟩ := kv
    rw [tableInsert]
    by_cases hk : k = key
    · rw [if_pos hk, tableFind]
      subst hk
      by_cases hk' : k = key'
      · rw [if_pos hk', if_pos hk']
      · rw [if_neg hk', if_neg hk', tableFind, if_neg hk']
    · rw [if_neg hk, tableFind, ih]
      by_cases hk' : k = key'
      · rw [if_pos hk']
        have : ¬ key = key' := fun h => hk (h ▸ hk')
        rw [if_neg this, tableFind, if_pos hk']
      · rw [if_neg hk', tableFind, if_neg hk']

theorem Store_transpositionMap (t : AtaxxBitTranspositionTable) (g : AtaxxBitboard)
    (m : Bool) (d : Nat) (a bb : Int) (rb : AtaxxBitboard) (rs : Int) :
    (t.Store g m d a bb rb rs).transpositionMap =
      if t.transpositionMap.length = t.maxSize then
        tableInsert [] ⟨g, m, d, a, bb⟩ ⟨rb, rs⟩
      else tableInsert t.transpositionMap ⟨g, m, d, a, bb⟩ ⟨rb, rs⟩ := rfl

theorem tableFind_applyStores :
    ∀ (ops : List (AtaxxBitTransposition × AtaxxBitTranspositionResult))
      (t : AtaxxBitTranspositionTable) (k : AtaxxBitTransposition)
      (v : AtaxxBitTranspositionResult),
      tableFind (applyStores t ops).transpositionMap k = some v →
      (k, v) ∈ ops ∨ tableFind t.transpositionMap k = some v := by
  intro ops
  induction ops with
  | nil => intro t k v h; exact Or.inr h
  | cons op rest ih =>
    intro t k v h
    rcases ih _ k v h with hmem | hfind
    · exact Or.inl (List.mem_cons_of_mem op hmem)
    · have hfind2 : tableFind (t.Store op.1.board op.1.maximizingPlayer op.1.depth
          op.1.alpha op.1.beta op.2.resultBoard op.2.resultScore).transpositionMap k =
          some v := hfind
      rw [Store_transpositionMap] at hfind2
      clear hfind
      rename' hfind2 => hfind
      by_cases hfull : t.transpositionMap.length = t.maxSize
      · rw [if_pos hfull] at hfind
        rw [show (tableInsert [] op.1 op.2) = [(op.1, op.2)] from rfl, tableFind] at hfind
        by_cases hkey : op.1 = k
        · rw [if_pos hkey] at hfind
          obtain rfl := Option.some.inj hfind
          exact Or.inl (hkey ▸ List.mem_cons_self op rest)
        · rw [if_neg hkey, tableFind] at hfind
          exact absurd hfind (by simp)
      · rw [if_neg hfull, tableFind_insert] at hfind
        by_cases hkey : op.1 = k
        · rw [if_pos hkey] at hfind
          obtain rfl := Option.some.inj hfind
          exact Or.inl (hkey ▸ List.mem_cons_self op rest)
        · rw [if_neg hkey] at hfind
          exact Or.inr hfind

/-- Claim C9.  A `Load` on a table built by any sequence of stores from a
fresh table reports `found` only when some earlier `Store` used a key
identical in all five components (board, side, depth, alpha, beta), and
then returns exactly the board and score stored under that key; since key
equality includes the window, entries are never reused across different
`(alpha, beta)` windows. -/
theorem claim_C9_load_key_exact (n : Nat)
    (ops : List (AtaxxBitTransposition × AtaxxBitTranspositionResult))
    (k : AtaxxBitTransposition) (b : AtaxxBitboard) (sc : Int) :
    (applyStores (NewBitTranspositionTable n) ops).Load k.board k.maximizingPlayer
      k.depth k.alpha k.beta = (b, sc, true) →
    (k, ⟨b, sc⟩) ∈ ops := by
  intro h
  unfold AtaxxBitTranspositionTable.Load at h
  rcases hfind : tableFind (applyStores (NewBitTranspositionTable n) ops).transpositionMap
      ⟨k.board, k.maximizingPlayer, k.depth, k.alpha, k.beta⟩ with _ | res
  · rw [hfind] at h
    exact absurd (congrArg (fun p => p.2.2) h) (by simp)
  · rw [hfind] at h
    have hb : res.resultBoard = b := congrArg (fun p => p.1) h
    have hs : res.resultScore = sc := congrArg (fun p => p.2.1) h
    have hkey : (⟨k.board, k.maximizingPlayer, k.depth, k.alpha, k.beta⟩ :
        AtaxxBitTransposition) = k := rfl
    rw [hkey] at hfind
    rcases tableFind_applyStores ops (NewBitTranspositionTable n) k res hfind with hmem | hnone
    · have : res = ⟨b, sc⟩ := by
        cases res
        simp_all
      exact this ▸ hmem
    · exact absurd hnone (by rw [show (NewBitTranspositionTable n).transpositionMap = []
        from rfl, tableFind]; simp)

/-- Witness for C9: a single stored entry is found and returned exactly. -/
theorem claim_C9_witness :
    ((⟨⟨0, 0⟩, true, 0, -49, 49⟩ : AtaxxBitTransposition),
      (⟨⟨1, 2⟩, 3⟩ : AtaxxBitTranspositionResult)) ∈
        [((⟨⟨0, 0⟩, true, 0, -49, 49⟩ : AtaxxBitTransposition),
          (⟨⟨1, 2⟩, 3⟩ : AtaxxBitTranspositionResult))] :=
  claim_C9_load_key_exact 4
    [(⟨⟨0, 0⟩, true, 0, -49, 49⟩, ⟨⟨1, 2⟩, 3⟩)] ⟨⟨0, 0⟩, true, 0, -49, 49⟩ ⟨1, 2⟩ 3
    (by decide)

theorem TableOK_new (n : Nat) : TableOK (NewBitTranspositionTable n) := by
  intro k res h
  rw [show (NewBitTranspositionTable n).transpositionMap = [] from rfl, tableFind] at h
  exact absurd h (by simp)

theorem TableOK_store {t : AtaxxBitTranspositionTable} (hok : TableOK t)
    {g : AtaxxBitboard} {m : Bool} {d : Nat} {a bb : Int} {r : AtaxxBitboard × Int}
    (hr : r = AlphaBeta bitScore bitNext d g m a bb) :
    TableOK (t.Store g m d a bb r.1 r.2) := by
  intro k res hfind
  rw [Store_transpositionMap] at hfind
  have main : tableFind (tableInsert t.transpositionMap ⟨g, m, d, a, bb⟩ ⟨r.1, r.2⟩) k =
      some res → (res.resultBoard, res.resultScore) =
      AlphaBeta bitScore bitNext k.depth k.board k.maximizingPlayer k.alpha k.beta := by
    intro hf
    rw [tableFind_insert] at hf
    by_cases hkey : (⟨g, m, d, a, bb⟩ : AtaxxBitTransposition) = k
    · rw [if_pos hkey] at hf
      obtain rfl := Option.some.inj hf
      rw [← hkey]
      simpa using hr
    · rw [if_neg hkey] at hf
      exact hok k res hf
  have empt : tableFind (tableInsert [] ⟨g, m, d, a, bb⟩ ⟨r.1, r.2⟩) k =
      some res → (res.resultBoard, res.resultScore) =
      AlphaBeta bitScore bitNext k.depth k.board k.maximizingPlayer k.alpha k.beta := by
    intro hf
    rw [show tableInsert ([] : List (AtaxxBitTransposition × AtaxxBitTranspositionResult))
        ⟨g, m, d, a, bb⟩ ⟨r.1, r.2⟩ = [(⟨g, m, d, a, bb⟩, ⟨r.1, r.2⟩)] from rfl,
      tableFind] at hf
    by_cases hkey : (⟨g, m, d, a, bb⟩ : AtaxxBitTransposition) = k
    · rw [if_pos hkey] at hf
      obtain rfl := Option.some.inj hf
      rw [← hkey]
      simpa using hr
    · rw [if_neg hkey, tableFind] at hf
      exact absurd hf (by simp)
  split at hfind
  · exact empt hfind
  · exact main hfind

theorem Load_found {t : AtaxxBitTranspositionTable} {g : AtaxxBitboard} {m : Bool}
    {d : Nat} {a bb : Int} {x : AtaxxBitboard} {y : Int}
    (h : t.Load g m d a bb = (x, y, true)) :
    tableFind t.transpositionMap ⟨g, m, d, a, bb⟩ = some ⟨x, y⟩ := by
  unfold AtaxxBitTranspositionTable.Load at h
  rcases hf : tableFind t.transpositionMap ⟨g, m, d, a, bb⟩ with _ | res
  · rw [hf] at h
    exact absurd (congrArg (fun p => p.2.2) h) (by simp)
  · rw [hf] at h
    have h1 : res.resultBoard = x := congrArg (fun p => p.1) h
    have h2 : res.resultScore = y := congrArg (fun p => p.2.1) h
    cases res
    simp_all

theorem abttMaxLoop_eq
    (f : Int → AtaxxBitboard → AtaxxBitTranspositionTable →
      (AtaxxBitboard × Int) × AtaxxBitTranspositionTable)
    (fpure : Int → AtaxxBitboard → Int) (beta : Int)
    (hf : ∀ a b t, TableOK t → (f a b t).1.2 = fpure a b ∧ TableOK (f a b t).2) :
    ∀ (l : List AtaxxBitboard) (alpha : Int) (best : AtaxxBitboard × Int)
      (t : AtaxxBitTranspositionTable), TableOK t →
      (abttMaxLoop f beta alpha best l t).1 = abMaxLoop fpure beta alpha best l ∧
      TableOK (abttMaxLoop f beta alpha best l t).2 := by
  intro l
  induction l with
  | nil => intro alpha best t hok; exact ⟨rfl, hok⟩
  | cons b rest ih =>
    intro alpha best t hok
    obtain ⟨he, hok'⟩ := hf alpha b t hok
    rw [abttMaxLoop, abMaxLoop, he]
    by_cases hcut : (if (if fpure alpha b > best.2 then (b, fpure alpha b) else best).2 > alpha
        then (if fpure alpha b > best.2 then (b, fpure alpha b) else best).2 else alpha) ≥ beta
    · rw [if_pos hcut, if_pos hcut]
      exact ⟨rfl, hok'⟩
    · rw [if_neg hcut, if_neg hcut]
      exact ih _ _ _ hok'

theorem abttMaxGo_eq
    (f : Int → AtaxxBitboard → AtaxxBitTranspositionTable →
      (AtaxxBitboard × Int) × AtaxxBitTranspositionTable)
    (fpure : Int → AtaxxBitboard → Int) (beta : Int)
    (hf : ∀ a b t, TableOK t → (f a b t).1.2 = fpure a b ∧ TableOK (f a b t).2)
    (alpha : Int) (b : AtaxxBitboard) (rest : List AtaxxBitboard)
    (t : AtaxxBitTranspositionTable) (hok : TableOK t) :
    (abttMaxGo f beta alpha b rest t).1 = abMaxGo fpure beta alpha b rest ∧
    TableOK (abttMaxGo f beta alpha b rest t).2 := by
  obtain ⟨he, hok'⟩ := hf alpha b t hok
  rw [abttMaxGo, abMaxGo, he]
  by_cases hcut : (if fpure alpha b > alpha then fpure alpha b else alpha) ≥ beta
  · rw [if_pos hcut, if_pos hcut]
    exact ⟨rfl, hok'⟩
  · rw [if_neg hcut, if_neg hcut]
    exact abttMaxLoop_eq f fpure beta hf rest _ _ _ hok'

theorem abttMinLoop_eq
    (f : Int → AtaxxBitboard → AtaxxBitTranspositionTable →
      (AtaxxBitboard × Int) × AtaxxBitTranspositionTable)
    (fpure : Int → AtaxxBitboard → Int) (alpha : Int)
    (hf : ∀ bb b t, TableOK t → (f bb b t).1.2 = fpure bb b ∧ TableOK (f bb b t).2) :
    ∀ (l : List AtaxxBitboard) (beta : Int) (best : AtaxxBitboard × Int)
      (t : AtaxxBitTranspositionTable), TableOK t →
      (abttMinLoop f alpha beta best l t).1 = abMinLoop fpure alpha beta best l ∧
      TableOK (abttMinLoop f alpha beta best l t).2 := by
  intro l
  induction l with
  | nil => intro beta best t hok; exact ⟨rfl, hok⟩
  | cons b rest ih =>
    intro beta best t hok
    obtain ⟨he, hok'⟩ := hf beta b t hok
    rw [abttMinLoop, abMinLoop, he]
    by_cases hcut : alpha ≥ (if (if fpure beta b < best.2 then (b, fpure beta b) else best).2 <
        beta then (if fpure beta b < best.2 then (b, fpure beta b) else best).2 else beta)
    · rw [if_pos hcut, if_pos hcut]
      exact ⟨rfl, hok'⟩
    · rw [if_neg hcut, if_neg hcut]
      exact ih _ _ _ hok'

theorem abttMinGo_eq
    (f : Int → AtaxxBitboard → AtaxxBitTranspositionTable →
      (AtaxxBitboard × Int) × AtaxxBitTranspositionTable)
    (fpure : Int → AtaxxBitboard → Int) (alpha : Int)
    (hf : ∀ bb b t, TableOK t → (f bb b t).1.2 = fpure bb b ∧ TableOK (f bb b t).2)
    (beta : Int) (b : AtaxxBitboard) (rest : List AtaxxBitboard)
    (t : AtaxxBitTranspositionTable) (hok : TableOK t) :
    (abttMinGo f alpha beta b rest t).1 = abMinGo fpure alpha beta b rest ∧
    TableOK (abttMinGo f alpha beta b rest t).2 := by
  obtain ⟨he, hok'⟩ := hf beta b t hok
  rw [abttMinGo, abMinGo, he]
  by_cases hcut : alpha ≥ (if fpure beta b < beta then fpure beta b else beta)
  · rw [if_pos hcut, if_pos hcut]
    exact ⟨rfl, hok'⟩
  · rw [if_neg hcut, if_neg hcut]
    exact abttMinLoop_eq f fpure alpha hf rest _ _ _ hok'

theorem ABTT_hit {t : AtaxxBitTranspositionTable} {g : AtaxxBitboard} {m : Bool}
    {d : Nat} {alpha beta : Int} {hb : AtaxxBitboard} {hs : Int}
    (hload : t.Load g m d alpha beta = (hb, hs, true)) :
    AlphaBetaTransposition d g m alpha beta t = ((hb, hs), t) := by
  rcases hn : bitNext g (colorOf m) with _ | ⟨b, rest⟩
  · rw [AlphaBetaTransposition.eq_1 g m alpha beta t d hn, hload]
  · cases d with
    | zero => rw [AlphaBetaTransposition.eq_2 g m alpha beta t b rest hn, hload]
    | succ d => rw [AlphaBetaTransposition.eq_3 g m alpha beta t d b rest hn, hload]

theorem ABTT_miss_empty {t : AtaxxBitTranspositionTable} {g : AtaxxBitboard} {m : Bool}
    {d : Nat} {alpha beta : Int} {x : AtaxxBitboard} {y : Int}
    (hload : t.Load g m d alpha beta = (x, y, false))
    (hn : bitNext g (colorOf m) = []) :
    AlphaBetaTransposition d g m alpha beta t =
      ((g, bitScore g), t.Store g m d alpha beta g (bitScore g)) := by
  rw [AlphaBetaTransposition.eq_1 g m alpha beta t d hn, hload]

theorem ABTT_miss_zero_cons {t : AtaxxBitTranspositionTable} {g : AtaxxBitboard} {m : Bool}
    {alpha beta : Int} {x b : AtaxxBitboard} {y : Int} {rest : List AtaxxBitboard}
    (hload : t.Load g m 0 alpha beta = (x, y, false))
    (hn : bitNext g (colorOf m) = b :: rest) :
    AlphaBetaTransposition 0 g m alpha beta t =
      ((if m then bestMaxFold bitScore b rest else bestMinFold bitScore b rest),
        t.Store g m 0 alpha beta
          (if m then bestMaxFold bitScore b rest else bestMinFold bitScore b rest).1
          (if m then bestMaxFold bitScore b rest else bestMinFold bitScore b rest).2) := by
  rw [AlphaBetaTransposition.eq_2 g m alpha beta t b rest hn, hload]

theorem ABTT_miss_succ_cons_max {t : AtaxxBitTranspositionTable} {g : AtaxxBitboard}
    {d : Nat} {alpha beta : Int} {x b : AtaxxBitboard} {y : Int} {rest : List AtaxxBitboard}
    (hload : t.Load g true (d + 1) alpha beta = (x, y, false))
    (hn : bitNext g (colorOf true) = b :: rest) :
    AlphaBetaTransposition (d + 1) g true alpha beta t =
      ((abttMaxGo (fun a b' t' => AlphaBetaTransposition d b' false a beta t')
          beta alpha b rest t).1,
        ((abttMaxGo (fun a b' t' => AlphaBetaTransposition d b' false a beta t')
          beta alpha b rest t).2).Store g true (d + 1) alpha beta
          ((abttMaxGo (fun a b' t' => AlphaBetaTransposition d b' false a beta t')
            beta alpha b rest t).1.1)
          ((abttMaxGo (fun a b' t' => AlphaBetaTransposition d b' false a beta t')
            beta alpha b rest t).1.2)) := by
  rw [AlphaBetaTransposition.eq_3 g true alpha beta t d b rest hn, hload]
  rfl

theorem ABTT_miss_succ_cons_min {t : AtaxxBitTranspositionTable} {g : AtaxxBitboard}
    {d : Nat} {alpha beta : Int} {x b : AtaxxBitboard} {y : Int} {rest : List AtaxxBitboard}
    (hload : t.Load g false (d + 1) alpha beta = (x, y, false))
    (hn : bitNext g (colorOf false) = b :: rest) :
    AlphaBetaTransposition (d + 1) g false alpha beta t =
      ((abttMinGo (fun bb b' t' => AlphaBetaTransposition d b' true alpha bb t')
          alpha beta b rest t).1,
        ((abttMinGo (fun bb b' t' => AlphaBetaTransposition d b' true alpha bb t')
          alpha beta b rest t).2).Store g false (d + 1) alpha beta
          ((abttMinGo (fun bb b' t' => AlphaBetaTransposition d b' true alpha bb t')
            alpha beta b rest t).1.1)
          ((abttMinGo (fun bb b' t' => AlphaBetaTransposition d b' true alpha bb t')
            alpha beta b rest t).1.2)) := by
  rw [AlphaBetaTransposition.eq_3 g false alpha beta t d b rest hn, hload]
  rfl

theorem AlphaBeta_next_empty {G : Type} (score : G → Int) (next : G → Int → List G)
    {g : G} {m : Bool} (d : Nat) (alpha beta : Int) (hn : next g (colorOf m) = []) :
    AlphaBeta score next d g m alpha beta = (g, score g) := by
  cases d <;> simp [AlphaBeta, hn]

theorem AlphaBeta_zero_cons {G : Type} (score : G → Int) (next : G → Int → List G)
    {g b : G} {rest : List G} {m : Bool} (alpha beta : Int)
    (hn : next g (colorOf m) = b :: rest) :
    AlphaBeta score next 0 g m alpha beta =
      if m then bestMaxFold score b rest else bestMinFold score b rest := by
  cases m <;> simp [AlphaBeta, hn]

theorem AlphaBeta_succ_cons_max {G : Type} (score : G → Int) (next : G → Int → List G)
    {g b : G} {rest : List G} (d : Nat) (alpha beta : Int)
    (hn : next g (colorOf true) = b :: rest) :
    AlphaBeta score next (d + 1) g true alpha beta =
      abMaxGo (fun a b' => (AlphaBeta score next d b' false a beta).2) beta alpha b rest := by
  simp only [AlphaBeta, hn]
  rw [if_pos (by trivial)]

theorem AlphaBeta_succ_cons_min {G : Type} (score : G → Int) (next : G → Int → List G)
    {g b : G} {rest : List G} (d : Nat) (alpha beta : Int)
    (hn : next g (colorOf false) = b :: rest) :
    AlphaBeta score next (d + 1) g false alpha beta =
      abMinGo (fun bb b' => (AlphaBeta score next d b' true alpha bb).2) alpha beta b rest := by
  simp only [AlphaBeta, hn]
  rw [if_neg (by simp)]

theorem ABTT_correct : ∀ (d : Nat) (g : AtaxxBitboard) (m : Bool) (alpha beta : Int)
    (t : AtaxxBitTranspositionTable), TableOK t →
    (AlphaBetaTransposition d g m alpha beta t).1 =
      AlphaBeta bitScore bitNext d g m alpha beta ∧
    TableOK (AlphaBetaTransposition d g m alpha beta t).2 := by
  intro d
  induction d with
  | zero =>
    intro g m alpha beta t hok
    rcases hload : t.Load g m 0 alpha beta with ⟨hb, hs, found⟩
    cases found
    · rcases hn : bitNext g (colorOf m) with _ | ⟨b, rest⟩
      · rw [ABTT_miss_empty hload hn]
        have he : (g, bitScore g) = AlphaBeta bitScore bitNext 0 g m alpha beta :=
          (AlphaBeta_next_empty bitScore bitNext 0 alpha beta hn).symm
        exact ⟨he, TableOK_store hok he⟩
      · rw [ABTT_miss_zero_cons hload hn]
        have he : (if m then bestMaxFold bitScore b rest else bestMinFold bitScore b rest) =
            AlphaBeta bitScore bitNext 0 g m alpha beta :=
          (AlphaBeta_zero_cons bitScore bitNext alpha beta hn).symm
        exact ⟨he, TableOK_store hok he⟩
    · rw [ABTT_hit hload]
      exact ⟨hok ⟨g, m, 0, alpha, beta⟩ ⟨hb, hs⟩ (Load_found hload), hok⟩
  | succ d ih =>
    intro g m alpha beta t hok
    rcases hload : t.Load g m (d + 1) alpha beta with ⟨hb, hs, found⟩
    cases found
    · rcases hn : bitNext g (colorOf m) with _ | ⟨b, rest⟩
      · rw [ABTT_miss_empty hload hn]
        have he : (g, bitScore g) = AlphaBeta bitScore bitNext (d + 1) g m alpha beta :=
          (AlphaBeta_next_empty bitScore bitNext (d + 1) alpha beta hn).symm
        exact ⟨he, TableOK_store hok he⟩
      · cases m
        · rw [ABTT_miss_succ_cons_min hload hn]
          have hgo := abttMinGo_eq
            (fun bb b' t' => AlphaBetaTransposition d b' true alpha bb t')
            (fun bb b' => (AlphaBeta bitScore bitNext d b' true alpha bb).2) alpha
            (fun bb b' t' hok' =>
              ⟨congrArg Prod.snd (ih b' true alpha bb t' hok').1,
                (ih b' true alpha bb t' hok').2⟩)
            beta b rest t hok
          have he : (abttMinGo (fun bb b' t' => AlphaBetaTransposition d b' true alpha bb t')
              alpha beta b rest t).1 =
              AlphaBeta bitScore bitNext (d + 1) g false alpha beta := by
            rw [hgo.1, AlphaBeta_succ_cons_min bitScore bitNext d alpha beta hn]
          exact ⟨he, TableOK_store hgo.2 he⟩
        · rw [ABTT_miss_succ_cons_max hload hn]
          have hgo := abttMaxGo_eq
            (fun a b' t' => AlphaBetaTransposition d b' false a beta t')
            (fun a b' => (AlphaBeta bitScore bitNext d b' false a beta).2) beta
            (fun a b' t' hok' =>
              ⟨congrArg Prod.snd (ih b' false a beta t' hok').1,
                (ih b' false a beta t' hok').2⟩)
            alpha b rest t hok
          have he : (abttMaxGo (fun a b' t' => AlphaBetaTransposition d b' false a beta t')
              beta alpha b rest t).1 =
              AlphaBeta bitScore bitNext (d + 1) g true alpha beta := by
            rw [hgo.1, AlphaBeta_succ_cons_max bitScore bitNext d alpha beta hn]
          exact ⟨he, TableOK_store hgo.2 he⟩
    · rw [ABTT_hit hload]
      exact ⟨hok ⟨g, m, d + 1, alpha, beta⟩ ⟨hb, hs⟩ (Load_found hload), hok⟩

/-- Claim C5.  With any initially-empty table, `AlphaBetaTransposition`
returns the same (board, score) pair as `AlphaBeta`, and a repeated call
with the same arguments on the (now populated) returned table returns the
same result again. -/
theorem claim_C5_transposition_equals_alphabeta (B : AtaxxBitboard) (s : Bool) (d : Nat)
    (alpha beta : Int) (n : Nat) :
    (AlphaBetaTransposition d B s alpha beta (NewBitTranspositionTable n)).1 =
      AlphaBeta bitScore bitNext d B s alpha beta ∧
    (AlphaBetaTransposition d B s alpha beta
        ((AlphaBetaTransposition d B s alpha beta (NewBitTranspositionTable n)).2)).1 =
      (AlphaBetaTransposition d B s alpha beta (NewBitTranspositionTable n)).1 := by
  have h1 := ABTT_correct d B s alpha beta (NewBitTranspositionTable n) (TableOK_new n)
  have h2 := ABTT_correct d B s alpha beta _ h1.2
  exact ⟨h1.1, by rw [h1.1, h2.1]⟩

theorem popCountSpec_zero : popCountSpec 0 = 0 := by
  simp [popCountSpec]

theorem popCountSpec_double (n : Nat) : popCountSpec (2 * n) = popCountSpec n := by
  rw [← PiecesPlaced_eq_popCountSpec, ← PiecesPlaced_eq_popCountSpec, PiecesPlaced_double]

theorem land_double_two (a b : Nat) : (2 * a) &&& (2 * b) = 2 * (a &&& b) := by
  apply Nat.eq_of_testBit_eq
  intro i
  cases i with
  | zero => simp [Nat.testBit_zero, Nat.mul_mod_right]
  | succ i =>
    have e1 : 2 * a / 2 = a := by omega
    have e2 : 2 * b / 2 = b := by omega
    have e3 : 2 * (a &&& b) / 2 = a &&& b := by omega
    simp only [Nat.testBit_succ, Nat.and_div_two, e1, e2, e3]

theorem popCountSpec_or_disjoint :
    ∀ (m a b : Nat), a + b ≤ m → a &&& b = 0 →
      popCountSpec (a ||| b) = popCountSpec a + popCountSpec b := by
  intro m
  induction m with
  | zero =>
    intro a b hm _
    have ha : a = 0 := by omega
    have hb : b = 0 := by omega
    subst ha; subst hb
    simp [popCountSpec_zero]
  | succ m ih =>
    intro a b hm h
    rcases Nat.eq_zero_or_pos a with rfl | ha
    · simp [popCountSpec_zero]
    rcases Nat.eq_zero_or_pos b with rfl | hb
    · simp [popCountSpec_zero]
    have ha0 : a ≠ 0 := by omega
    have hb0 : b ≠ 0 := by omega
    have hab : a ||| b ≠ 0 := by
      intro h0
      have hle : a ≤ a ||| b := landSubset_le (land_absorb a b)
      omega
    have key : ∀ n : Nat, n % 2 = if n.testBit 0 then 1 else 0 := by
      intro n
      rcases hx : n.testBit 0
      · rw [Nat.testBit_zero] at hx
        simp only [decide_eq_false_iff_not] at hx
        simp only [if_neg Bool.false_ne_true]
        omega
      · rw [Nat.testBit_zero] at hx
        simp only [decide_eq_true_eq] at hx
        simp only [if_pos rfl]
        exact hx
    have hmod : (a ||| b) % 2 = a % 2 + b % 2 := by
      have hand : (a.testBit 0 && b.testBit 0) = false := by
        rw [← Nat.testBit_and, h, Nat.zero_testBit]
      rw [key a, key b, key (a ||| b), Nat.testBit_or a b 0]
      rcases hx : a.testBit 0 <;> rcases hy : b.testBit 0
      · decide
      · decide
      · decide
      · rw [hx, hy] at hand
        simp at hand
    have hd2 : a / 2 &&& b / 2 = 0 := by
      rw [← Nat.and_div_two, h]
    have hrec : popCountSpec (a / 2 ||| b / 2) =
        popCountSpec (a / 2) + popCountSpec (b / 2) := by
      refine ih (a / 2) (b / 2) ?_ hd2
      omega
    have hua : popCountSpec a = a % 2 + popCountSpec (a / 2) := by
      rw [popCountSpec, if_neg ha0]
    have hub : popCountSpec b = b % 2 + popCountSpec (b / 2) := by
      rw [popCountSpec, if_neg hb0]
    rw [popCountSpec, if_neg hab, Nat.or_div_two, hrec, hua, hub]
    omega

theorem xor_or_self_of_subset {x j : Nat} (h : j &&& x = j) : (x ^^^ j) ||| j = x := by
  apply Nat.eq_of_testBit_eq
  intro i
  have hj := congrArg (fun n => Nat.testBit n i) h
  simp only [Nat.testBit_and] at hj
  simp only [Nat.testBit_or, Nat.testBit_xor]
  rcases hx : x.testBit i <;> rcases hji : j.testBit i <;> simp_all

theorem xor_land_self_of_subset {x j : Nat} (h : j &&& x = j) : (x ^^^ j) &&& j = 0 := by
  apply Nat.eq_of_testBit_eq
  intro i
  have hj := congrArg (fun n => Nat.testBit n i) h
  simp only [Nat.testBit_and] at hj
  simp only [Nat.testBit_and, Nat.testBit_xor, Nat.zero_testBit]
  rcases hx : x.testBit i <;> rcases hji : j.testBit i <;> simp_all

theorem popCountSpec_xor_subset {x j : Nat} (h : j &&& x = j) :
    popCountSpec (x ^^^ j) + popCountSpec j = popCountSpec x := by
  have h1 := popCountSpec_or_disjoint ((x ^^^ j) + j) (x ^^^ j) j le_rfl
    (xor_land_self_of_subset h)
  rw [xor_or_self_of_subset h] at h1
  omega

theorem popCountSpec_subset_le {a b : Nat} (h : a &&& b = a) :
    popCountSpec a ≤ popCountSpec b := by
  have hj : (b ^^^ a) &&& b = b ^^^ a := landSubset_xor h
  have h2 := popCountSpec_xor_subset hj
  rw [show b ^^^ (b ^^^ a) = a from by
    rw [← Nat.xor_assoc, Nat.xor_self, Nat.zero_xor]] at h2
  omega

theorem popCountSpec_two_pow (k : Nat) : popCountSpec (2 ^ k) = 1 := by
  induction k with
  | zero =>
    rw [pow_zero, popCountSpec, if_neg one_ne_zero]
    norm_num [popCountSpec_zero]
  | succ k ih =>
    rw [pow_succ, mul_comm, popCountSpec_double, ih]

theorem even_add_one_or {n : Nat} (h : n % 2 = 0) : n + 1 = n ||| 1 := by
  apply Nat.eq_of_testBit_eq
  intro i
  cases i with
  | zero =>
    have h1 : (n + 1) % 2 = 1 := by omega
    simp [Nat.testBit_zero, Nat.testBit_or, h1, h]
  | succ i =>
    have e1 : (n + 1) / 2 = n / 2 := by omega
    have h1b : Nat.testBit 1 (i + 1) = false := by
      rw [Nat.testBit_succ]
      simp
    rw [Nat.testBit_or, Nat.testBit_succ, Nat.testBit_succ, e1, h1b, Bool.or_false]

theorem not_sub_one_xor_double (w m : Nat) :
    (2 ^ (w + 1) - 1) ^^^ (2 * m) = 2 * ((2 ^ w - 1) ^^^ m) + 1 := by
  have hp : (2 : Nat) ^ (w + 1) = 2 * 2 ^ w := by ring
  have hge : (1 : Nat) ≤ 2 ^ w := Nat.one_le_two_pow
  apply Nat.eq_of_testBit_eq
  intro i
  cases i with
  | zero =>
    have h1 : (2 ^ (w + 1) - 1) % 2 = 1 := by omega
    have h2 : (2 * m) % 2 = 0 := by omega
    have h3 : (2 * ((2 ^ w - 1) ^^^ m) + 1) % 2 = 1 := by omega
    simp [Nat.testBit_zero, Nat.testBit_xor, h1, h2, h3]
  | succ i =>
    have e1 : (2 ^ (w + 1) - 1) / 2 = 2 ^ w - 1 := by omega
    have e2 : (2 * m) / 2 = m := by omega
    have e3 : (2 * ((2 ^ w - 1) ^^^ m) + 1) / 2 = (2 ^ w - 1) ^^^ m := by omega
    simp only [Nat.testBit_succ, Nat.xor_div_two, e1, e2, e3]

theorem lsbPow : ∀ (w j : Nat), j ≠ 0 → j < 2 ^ w →
    ∃ k, (((2 ^ w - 1) ^^^ j) + 1) &&& j = 2 ^ k := by
  intro w
  induction w with
  | zero =>
    intro j hj0 hj
    exact absurd (by omega : j = 0) hj0
  | succ w ih =>
    intro j hj0 hj
    rcases Nat.mod_two_eq_zero_or_one j with h2 | h2
    · obtain ⟨m, rfl⟩ : ∃ m, j = 2 * m := ⟨j / 2, by omega⟩
      have hm0 : m ≠ 0 := by omega
      have hp : (2 : Nat) ^ (w + 1) = 2 * 2 ^ w := by ring
      have hmlt : m < 2 ^ w := by omega
      obtain ⟨k, hk⟩ := ih m hm0 hmlt
      refine ⟨k + 1, ?_⟩
      rw [not_sub_one_xor_double,
        show 2 * ((2 ^ w - 1) ^^^ m) + 1 + 1 = 2 * (((2 ^ w - 1) ^^^ m) + 1) from by ring,
        land_double_two, hk]
      ring
    · refine ⟨0, ?_⟩
      have hA : ((2 ^ (w + 1) - 1) ^^^ j) % 2 = 0 := by
        have hp : (2 : Nat) ^ (w + 1) = 2 * 2 ^ w := by ring
        have hge : (1 : Nat) ≤ 2 ^ w := Nat.one_le_two_pow
        have h1 : (2 ^ (w + 1) - 1) % 2 = 1 := by omega
        have hb := Nat.testBit_xor (2 ^ (w + 1) - 1) j 0
        simp only [Nat.testBit_zero, h1, h2] at hb
        rcases hm : ((2 ^ (w + 1) - 1) ^^^ j) % 2 with _ | n
        · rfl
        · simp [hm] at hb
          omega
      rw [even_add_one_or hA, pow_zero]
      apply Nat.eq_of_testBit_eq
      intro i
      cases i with
      | zero =>
        have h1 : (1 : Nat) % 2 = 1 := by norm_num
        simp [Nat.testBit_zero, Nat.testBit_or, Nat.testBit_and, h1, h2]
      | succ i =>
        have h1b : Nat.testBit 1 (i + 1) = false := by
          rw [Nat.testBit_succ]
          simp
        simp only [Nat.testBit_and, Nat.testBit_or, Nat.testBit_xor,
          Nat.testBit_two_pow_sub_one, h1b, Bool.or_false]
        by_cases hi : i + 1 < w + 1
        · rcases hjb : j.testBit (i + 1) <;> simp [hi, hjb]
        · have hjb : j.testBit (i + 1) = false := by
            rcases hjb : j.testBit (i + 1)
            · rfl
            · exact absurd (testBit_lt_of_lt_two_pow hj hjb) hi
          simp [hjb]

theorem occupied_moving_or_waiting (B : AtaxxBitboard) (s : Bool) :
    B.maximizingPlayer ||| B.minimizingPlayer =
      movingPlayerOf B s ||| waitingPlayerOf B s := by
  cases s
  · simp only [movingPlayerOf, waitingPlayerOf, if_neg Bool.false_ne_true]
    exact Nat.or_comm _ _
  · rfl

theorem ToMinimaxBoard_waiting (mv : MoveBitboard) (s : Bool) :
    waitingPlayerOf (mv.ToMinimaxBoard s) s = mv.waitingPlayer := by
  cases s <;> rfl

theorem ToMinimaxBoard_popOccupied (mv : MoveBitboard) (s : Bool) :
    popCountSpec ((mv.ToMinimaxBoard s).maximizingPlayer |||
        (mv.ToMinimaxBoard s).minimizingPlayer) =
      popCountSpec (mv.movingPlayer ||| mv.waitingPlayer) := by
  cases s
  · show popCountSpec (mv.waitingPlayer ||| mv.movingPlayer) = _
    rw [Nat.or_comm]
  · rfl

theorem xor_or_comm_of_disjoint {x w p : Nat} (h1 : p &&& x = p) (h2 : p &&& w = 0) :
    (x ^^^ p) ||| w = (x ||| w) ^^^ p := by
  apply Nat.eq_of_testBit_eq
  intro i
  have e1 := congrArg (fun n => Nat.testBit n i) h1
  have e2 := congrArg (fun n => Nat.testBit n i) h2
  simp only [Nat.testBit_and, Nat.zero_testBit] at e1 e2
  simp only [Nat.testBit_or, Nat.testBit_xor]
  rcases hp : p.testBit i <;> rcases hx : x.testBit i <;>
    rcases hw : w.testBit i <;> simp_all

theorem templateOf_or {B : AtaxxBitboard} {s : Bool} {bit : Nat} (hB : bitBounded B) :
    (templateOf B s bit).movingPlayer ||| (templateOf B s bit).waitingPlayer =
      (movingPlayerOf B s ||| waitingPlayerOf B s) ||| (1 <<< bit) := by
  rw [templateOf_movingPlayer, templateOf_waitingPlayer]
  apply Nat.eq_of_testBit_eq
  intro i
  simp only [Nat.testBit_or, Nat.testBit_and, NOT64, Nat.testBit_xor,
    Nat.testBit_two_pow_sub_one, Nat.one_shiftLeft, Nat.testBit_two_pow]
  rcases hw : (waitingPlayerOf B s).testBit i
  · rcases hm : (movingPlayerOf B s).testBit i <;>
      rcases hb2 : decide (bit = i) <;> simp [hw, hm, hb2]
  · have hi : i < 49 := testBit_lt_of_lt_two_pow (waitingPlayerOf_lt hB s) hw
    have hi64 : decide (i < 64) = true := by simp; omega
    rcases hsb : (subdivideMask bit).testBit i <;> simp [hw, hi64, hsb]

theorem occupied_dest_disjoint {B : AtaxxBitboard} {s : Bool} {bit : Nat}
    (hm : (movingPlayerOf B s).testBit bit = false)
    (hw : (waitingPlayerOf B s).testBit bit = false) :
    (movingPlayerOf B s ||| waitingPlayerOf B s) &&& (1 <<< bit) = 0 := by
  apply Nat.eq_of_testBit_eq
  intro i
  simp only [Nat.testBit_and, Nat.testBit_or, Nat.one_shiftLeft,
    Nat.testBit_two_pow, Nat.zero_testBit]
  by_cases hbi : bit = i
  · subst hbi; simp [hm, hw]
  · simp [hbi]

theorem mem_jumpLoop_pow {s : Bool} {tpl : MoveBitboard} :
    ∀ (fuel j : Nat), j < 2 ^ 64 → ∀ b' ∈ jumpLoop s tpl fuel j,
      ∃ k, 2 ^ k &&& j = 2 ^ k ∧
        b' = MoveBitboard.ToMinimaxBoard
          ⟨tpl.movingPlayer ^^^ 2 ^ k, tpl.waitingPlayer⟩ s := by
  intro fuel
  induction fuel with
  | zero => intro j _ b' h; simp [jumpLoop] at h
  | succ fuel ih =>
    intro j hj b' h
    by_cases hj0 : j = 0
    · simp [jumpLoop, hj0] at h
    · rw [jumpLoop, if_neg hj0] at h
      have hNOT : NOT64 j = (2 ^ 64 - 1) ^^^ j := rfl
      rcases List.mem_cons.mp h with h | h
      · obtain ⟨k, hk⟩ := lsbPow 64 j hj0 hj
        rw [hNOT] at h
        rw [hk] at h
        refine ⟨k, ?_, h⟩
        rw [← hk]
        exact land_submask _ _
      · have hsub : (j ^^^ ((NOT64 j + 1) &&& j)) &&& j =
            j ^^^ ((NOT64 j + 1) &&& j) := landSubset_xor (land_submask _ _)
        have hlt : j ^^^ ((NOT64 j + 1) &&& j) < 2 ^ 64 :=
          Nat.lt_of_le_of_lt (landSubset_le hsub) hj
        obtain ⟨k, hk, he⟩ := ih _ hlt b' h
        exact ⟨k, landSubset_trans hk hsub, he⟩

/-- Claim C10.  For every bitboard satisfying the disjointness and 49-bit
invariants and every side, each successor emitted by
`AtaxxBitboard.NextBoards` has a waiting-player population that is a bit
subset of the waiting-player population of the input board (the side not
moving never gains a piece), and the total number of occupied cells never
decreases from the input board to any successor. -/
theorem claim_C10_waiting_subset_occupied_monotone :
    ∀ (B : AtaxxBitboard), bitInv B → ∀ (s : Bool), ∀ C ∈ B.NextBoards s,
      waitingPlayerOf C s &&& waitingPlayerOf B s = waitingPlayerOf C s ∧
      PiecesPlaced (B.maximizingPlayer ||| B.minimizingPlayer) ≤
        PiecesPlaced (C.maximizingPlayer ||| C.minimizingPlayer) := by
  intro B hB s C hmem
  rw [PiecesPlaced_eq_popCountSpec, PiecesPlaced_eq_popCountSpec]
  unfold AtaxxBitboard.NextBoards at hmem
  split at hmem
  · rw [List.mem_singleton] at hmem
    subst hmem
    exact ⟨Nat.and_self _, le_rfl⟩
  · simp only [List.mem_flatMap, List.mem_range] at hmem
    obtain ⟨bit, hbit, hmem⟩ := hmem
    split at hmem
    case isTrue hc =>
      have hE := emptyCells_testBit hbit hc.1
      have hocc := occupied_moving_or_waiting B s
      have hor := @templateOf_or B s bit hB.1
      have hdd := occupied_dest_disjoint hE.1 hE.2
      have hpop_t : popCountSpec ((templateOf B s bit).movingPlayer |||
          (templateOf B s bit).waitingPlayer) =
          popCountSpec (movingPlayerOf B s ||| waitingPlayerOf B s) + 1 := by
        rw [hor, popCountSpec_or_disjoint _ _ _ le_rfl hdd, Nat.one_shiftLeft,
          popCountSpec_two_pow]
      have hdisj := templateOf_disjoint hB hbit hE.1 hE.2
      rcases List.mem_append.mp hmem with hj | hs2
      · have hjlt : movingPlayerOf B s &&& jumpMask bit < 2 ^ 64 :=
          Nat.lt_of_le_of_lt Nat.and_le_left
            (lt_trans (movingPlayerOf_lt hB.1 s) (by norm_num))
        obtain ⟨k, hk, rfl⟩ := mem_jumpLoop_pow _ _ hjlt _ hj
        constructor
        · rw [ToMinimaxBoard_waiting]
          show (templateOf B s bit).waitingPlayer &&& waitingPlayerOf B s =
            (templateOf B s bit).waitingPlayer
          rw [templateOf_waitingPlayer]
          exact land_submask_left _ _
        · rw [hocc, ToMinimaxBoard_popOccupied]
          show popCountSpec (movingPlayerOf B s ||| waitingPlayerOf B s) ≤
            popCountSpec (((templateOf B s bit).movingPlayer ^^^ 2 ^ k) |||
              (templateOf B s bit).waitingPlayer)
          have h1 : 2 ^ k &&& (templateOf B s bit).movingPlayer = 2 ^ k :=
            landSubset_trans (landSubset_trans hk (land_submask_left _ _))
              (templateOf_moving_subset B s bit)
          have h2 : 2 ^ k &&& (templateOf B s bit).waitingPlayer = 0 :=
            landSubset_zero h1 hdisj
          rw [xor_or_comm_of_disjoint h1 h2]
          have h3 : 2 ^ k &&& ((templateOf B s bit).movingPlayer |||
              (templateOf B s bit).waitingPlayer) = 2 ^ k :=
            landSubset_trans h1 (land_absorb _ _)
          have h4 := popCountSpec_xor_subset h3
          rw [popCountSpec_two_pow] at h4
          omega
      · split at hs2
        · rw [List.mem_singleton] at hs2
          subst hs2
          constructor
          · rw [ToMinimaxBoard_waiting, templateOf_waitingPlayer]
            exact land_submask_left _ _
          · rw [hocc, ToMinimaxBoard_popOccupied]
            omega
        · simp at hs2
    case isFalse => simp at hmem

theorem claim_C10_witness :
    bitInv NewBitGame ∧
    (⟨281474976710659, 4398046511168⟩ : AtaxxBitboard) ∈ NewBitGame.NextBoards true ∧
    (waitingPlayerOf ⟨281474976710659, 4398046511168⟩ true &&&
        waitingPlayerOf NewBitGame true =
      waitingPlayerOf ⟨281474976710659, 4398046511168⟩ true ∧
      PiecesPlaced (NewBitGame.maximizingPlayer ||| NewBitGame.minimizingPlayer) ≤
        PiecesPlaced ((⟨281474976710659, 4398046511168⟩ : AtaxxBitboard).maximizingPlayer |||
          (⟨281474976710659, 4398046511168⟩ : AtaxxBitboard).minimizingPlayer)) :=
  ⟨by decide, by decide,
    claim_C10_waiting_subset_occupied_monotone NewBitGame (by decide) true
      ⟨281474976710659, 4398046511168⟩ (by decide)⟩
